import Mathlib

/-!
# Verification of `nplab/instrument/message_bus_instrument.py`

This file is a shallow embedding, in Lean 4, of the message-bus instrument
core of the nplab repository: the `query` / `read_multiline` transport loop,
the printf-style template compiler used by `parsed_query`, the typed parsing
layer, and the `queried_property` / `queried_channel_property` descriptors.

Conventions of the embedding:
* Python strings are `List Char` (abbreviated `Str`).
* The byte transport underneath an instrument is modelled by `MBI`: a queue
  of incoming lines (`readline` pops one; an exhausted queue yields the empty
  string, which in the source signals stream exhaustion) plus a log of all
  strings written to the bus.
* Python exceptions are modelled with `Except`; the `ValueError` messages
  raised by `parsed_query` are modelled structurally (carrying the same data
  that the source interpolates into the message) together with a renderer
  `pqErrMsg` reproducing the source's format string.
* Python floats are modelled as exact rationals `ℚ`; the float literals in
  the claims ("3.5") are exactly representable, so no rounding is involved.
* Python's `re` module is modelled by an executable regex engine
  (`Reg`, `mexec`, `reSearchGo`) together with a parser `parseRegTop` from
  the regex strings that `parsed_query` generates, and the substitution /
  occurrence scans `reSub` / `reFind` used by the template compiler.
-/

namespace NpLab

abbrev Str := List Char

/-- Python's `startswith` on lists of characters. -/
def strStarts : Str → Str → Bool
  | [], _ => true
  | _ :: _, [] => false
  | p :: ps, c :: cs => p = c && strStarts ps cs

/-- Python's substring containment test `needle in hay`. -/
def strContains (hay needle : Str) : Bool :=
  if strStarts needle hay then true
  else
    match hay with
    | [] => false
    | _ :: rest => strContains rest needle

/-- Python's whitespace predicate used by `str.strip()`:
space, tab, newline, carriage return, vertical tab, form feed. -/
def isPySpace (c : Char) : Bool :=
  c = ' ' || c = '\t' || c = '\n' || c = '\r' || c = '\x0b' || c = '\x0c'

/-- Python's `str.strip()`: remove all leading and trailing whitespace. -/
def pyStrip (s : Str) : Str :=
  ((s.dropWhile isPySpace).reverse.dropWhile isPySpace).reverse

/-- Modelled from the spec: "read exactly one line and strip the single
trailing line terminator before returning" — removes one trailing
`termination_character` (`"\n"`) if present, and nothing else.  This is the
spec's description of the non-multiline `query` return value, kept separate
from the source's `pyStrip` so the two can be compared. -/
def stripSingleTerminator (s : Str) : Str :=
  if s.getLast? = some '\n' then s.dropLast else s

/-!
## `MessageBusInstrument.read_multiline`

Source (`message_bus_instrument.py`, lines 55-68):
```
response = ""
last_line = "dummy"
while termination_line not in last_line and len(last_line) > 0:
    last_line = self.readline(timeout)
    response += last_line
return response
```
`rmlGo` returns the accumulated response, the number of `readline` calls
performed, and the lines left unread in the transport.  Reading from an
exhausted transport returns the empty string (one `readline` call). -/
def rmlGo (term : Str) (lines : List Str) (last resp : Str) : Str × Nat × List Str :=
  if strContains last term || last.isEmpty then (resp, 0, lines)
  else
    match lines with
    | [] => (resp, 1, [])
    | l :: ls =>
      let r := rmlGo term ls l (resp ++ l)
      (r.1, r.2.1 + 1, r.2.2)

/-- Equality of `Except` values is decidable when both components' is. -/
instance {ε α : Type _} [DecidableEq ε] [DecidableEq α] : DecidableEq (Except ε α) := fun x y =>
  match x, y with
  | .ok a, .ok b => if h : a = b then .isTrue (by rw [h]) else .isFalse (by simp [h])
  | .error a, .error b => if h : a = b then .isTrue (by rw [h]) else .isFalse (by simp [h])
  | .ok _, .error _ => .isFalse (by simp)
  | .error _, .ok _ => .isFalse (by simp)

/-- `read_multiline` with an explicit (non-`None`) termination line:
the loop above started with `response = ""` and `last_line = "dummy"`. -/
def read_multiline (term : Str) (lines : List Str) : Str × Nat × List Str :=
  rmlGo term lines ("dummy".toList) []

/-!
## The message-bus instrument state

`lines` models the stream of lines `readline` will produce; `writes` logs
every string passed to `write` (the base-class `write` is abstract, concrete
transports send it on the bus).  `flush_input_buffer` is a no-op in the base
class. -/
structure MBI where
  lines : List Str
  writes : List Str := []
  termination_line : Option Str := none
deriving DecidableEq, Repr

def MBI.readline : MBI → Str × MBI
  | i =>
    match i.lines with
    | [] => ([], i)
    | l :: ls => (l, { i with lines := ls })

def MBI.write (i : MBI) (m : Str) : MBI :=
  { i with writes := i.writes ++ [m] }

def MBI.flush_input_buffer (i : MBI) : MBI := i

/-- The `assert isinstance(termination_line, str)` failure in
`read_multiline` when no termination line is available. -/
inductive QErr
  | assertionError
deriving DecidableEq, Repr

/-- `MessageBusInstrument.read_multiline` as a method: resolves the
termination line (argument, else the instrument attribute), asserts it is a
string, and runs the loop, consuming the read lines from the transport. -/
def MBI.read_multiline (i : MBI) (tl : Option Str := none) :
    Except QErr Str × MBI :=
  let tl := match tl with
    | some t => some t
    | none => i.termination_line
  match tl with
  | none => (.error .assertionError, i)
  | some t =>
    let r := rmlGo t i.lines ("dummy".toList) []
    (.ok r.1, { i with lines := r.2.2 })

/-- `MessageBusInstrument.query` (lines 69-83):
flush, write, force multiline when a termination line is given, then either
read until the termination line or read one line and `strip()` it. -/
def MBI.query (i : MBI) (queryString : Str) (multiline : Bool := false)
    (termination_line : Option Str := none) : Except QErr Str × MBI :=
  let i := i.flush_input_buffer
  let i := i.write queryString
  let multiline := if termination_line.isSome then true else multiline
  if multiline then
    i.read_multiline termination_line
  else
    let r := i.readline
    (.ok (pyStrip r.1), r.2)

/-!
## Python values and string formatting

`PyVal` is the type of values flowing through the typed parsing layer and
the property descriptors.  Python floats are modelled as exact rationals. -/
inductive PyVal
  | vint (n : Int)
  | vfloat (q : ℚ)
  | vstr (s : Str)
deriving DecidableEq, Repr

def natToStr (n : Nat) : Str := Nat.toDigits 10 n

def intToStr (n : Int) : Str :=
  if n < 0 then '-' :: natToStr n.natAbs else natToStr n.natAbs

/-- Python `str()` of a value as used when formatting a value into a
command template.  (Python's float repr is not modelled; no claim formats a
float into a template.) -/
def pyStr : PyVal → Str
  | .vint n => intToStr n
  | .vstr s => s
  | .vfloat q => intToStr q.num ++ ('/' :: natToStr q.den)

/-- Python `str.format` with a single positional argument, restricted to the
plain `{0}` replacement fields that the repository's templates use. -/
def pyFormatOne (arg : Str) : Str → Str
  | '\x7b' :: '0' :: '\x7d' :: rest => arg ++ pyFormatOne arg rest
  | c :: rest => c :: pyFormatOne arg rest
  | [] => []

/-- Python `str.format` with two positional arguments (`{0}`, `{1}`), as
used by `queried_channel_property.__set__`. -/
def pyFormatTwo (a0 a1 : Str) : Str → Str
  | '\x7b' :: '0' :: '\x7d' :: rest => a0 ++ pyFormatTwo a0 a1 rest
  | '\x7b' :: '1' :: '\x7d' :: rest => a1 ++ pyFormatTwo a0 a1 rest
  | c :: rest => c :: pyFormatTwo a0 a1 rest
  | [] => []

/-- Python's `%` string formatting, restricted to the plain `%s`/`%d`/`%f`/
`%i` conversions: each conversion consumes the next argument. -/
def pyModGo : List PyVal → Str → Str
  | _, [] => []
  | args, '%' :: c :: rest =>
    if c = 's' || c = 'd' || c = 'f' || c = 'i' then
      match args with
      | a :: args2 => pyStr a ++ pyModGo args2 rest
      | [] => '%' :: c :: pyModGo [] rest
    else '%' :: c :: pyModGo args rest
  | args, c :: rest => c :: pyModGo args rest

/-!
## `queried_property.__set__` and `queried_channel_property.__set__`

Source (lines 195-207 and 239-251).  A validator models `fvalidate`;
returning `false` models the validator raising (rejecting the value).  The
result is the outcome together with the list of messages written to the
transport during the call. -/
inductive SetErr
  | attrErr
  | validationErr
deriving DecidableEq, Repr

def qp_set (set_cmd : Option Str) (fvalidate : Option (MBI → PyVal → Bool))
    (obj : MBI) (value : PyVal) : Except SetErr Unit × List Str :=
  match set_cmd with
  | none => (.error .attrErr, [])
  | some cmd =>
    let proceed : Bool := match fvalidate with
      | some f => f obj value
      | none => true
    if proceed then
      let message :=
        if strContains cmd ('\x7b' :: ['0']) then pyFormatOne (pyStr value) cmd
        else if strContains cmd ['%'] then pyModGo [value] cmd
        else cmd
      (.ok (), [message])
    else (.error .validationErr, [])

/-- A channel-bound instrument object: a channel index, the parent
bus instrument the property delegates to, and the object's own transport
(which `queried_channel_property` never touches). -/
structure ChInstr where
  ch : Int
  parent : MBI
  own : MBI
deriving DecidableEq, Repr

def qcp_set (set_cmd : Option Str) (fvalidate : Option (ChInstr → PyVal → Bool))
    (obj : ChInstr) (value : PyVal) : Except SetErr Unit × List Str :=
  match set_cmd with
  | none => (.error .attrErr, [])
  | some cmd =>
    let proceed : Bool := match fvalidate with
      | some f => f obj value
      | none => true
    if proceed then
      let message :=
        if strContains cmd ('\x7b' :: ['0']) then
          pyFormatTwo (intToStr obj.ch) (pyStr value) cmd
        else if strContains cmd ['%'] then pyModGo [.vint obj.ch, value] cmd
        else cmd
      (.ok (), [message])
    else (.error .validationErr, [])

/-!
## The placeholder table of `parsed_query`

Source (lines 125-135): tuples of (placeholder regex, replacement regex,
parse function).  The placeholder patterns are `%c`, `%(\d+)c`, `%d`,
`%[eEfg]`, `%i`, `%o`, `%s`, `%u`, `%[xX]`; each match consumes a `%`
followed by either one kind character or a digit run plus `c`. -/
inductive PKind
  | pc | pnc | pd | pf | pi | po | ps | pu | px
deriving DecidableEq, Repr

def replC : Str := ['.']
def replD : Str := "[-+]?\\d+".toList
def replF : Str := "[-+]?(?:\\d+(?:\\.\\d*)?|\\.\\d+)(?:[eE][-+]?\\d+)?".toList
def replI : Str := "[-+]?(?:0[xX][\\dA-Fa-f]+|0[0-7]*|\\d+)".toList
def replO : Str := "[-+]?[0-7]+".toList
def replS : Str := "\\S+".toList
def replU : Str := "\\d+".toList
def replX : Str := "[-+]?(?:0[xX])?[\\dA-Fa-f]+".toList

/-- Match one placeholder pattern right after its leading `%`: returns the
total consumed length (including the `%`) and the replacement regex
fragment.  For `%(\d+)c` the replacement is `.{N}` with the captured digit
run (the source's backreference `.{\1}`). -/
def phAfter : PKind → Str → Option (Nat × Str)
  | .pc, rest => if rest.head? = some 'c' then some (2, replC) else none
  | .pnc, rest =>
    let ds := rest.takeWhile Char.isDigit
    if ds.isEmpty = false ∧ (rest.drop ds.length).head? = some 'c' then
      some (ds.length + 2, '.' :: '\x7b' :: (ds ++ ['\x7d']))
    else none
  | .pd, rest => if rest.head? = some 'd' then some (2, replD) else none
  | .pf, rest =>
    if rest.head? = some 'e' ∨ rest.head? = some 'E' ∨ rest.head? = some 'f'
        ∨ rest.head? = some 'g' then some (2, replF) else none
  | .pi, rest => if rest.head? = some 'i' then some (2, replI) else none
  | .po, rest => if rest.head? = some 'o' then some (2, replO) else none
  | .ps, rest => if rest.head? = some 's' then some (2, replS) else none
  | .pu, rest => if rest.head? = some 'u' then some (2, replU) else none
  | .px, rest =>
    if rest.head? = some 'x' ∨ rest.head? = some 'X' then some (2, replX) else none

/-- Does placeholder pattern `k` match at the start of `s`?  Every match
starts with `%`. -/
def phMatch (k : PKind) (s : Str) : Option (Nat × Str) :=
  match s with
  | [] => none
  | c :: rest => if c = '%' then phAfter k rest else none

/-- Fuel-indexed scan underlying `reSub`; the fuel is only a structural
recursion bound, `reSub` supplies the string length. -/
def reSubF (k : PKind) : Nat → Str → Str
  | 0, s => s
  | _ + 1, [] => []
  | fuel + 1, c :: rest =>
    match phMatch k (c :: rest) with
    | some (n, repl) => ('(' :: repl ++ [')']) ++ reSubF k fuel (rest.drop (n - 1))
    | none => c :: reSubF k fuel rest

/-- `re.sub(placeholder, '(' + regex + ')', response_regex)`: scan left to
right; at each position replace a placeholder match by its parenthesised
replacement fragment, otherwise copy the character. -/
def reSub (k : PKind) (s : Str) : Str := reSubF k s.length s

/-- Fuel-indexed scan underlying `reFind`. -/
def reFindF (k : PKind) : Nat → Str → Nat → List Nat
  | 0, _, _ => []
  | _ + 1, [], _ => []
  | fuel + 1, c :: rest, pos =>
    match phMatch k (c :: rest) with
    | some (n, _) => pos :: reFindF k fuel (rest.drop (n - 1)) (pos + n)
    | none => reFindF k fuel rest (pos + 1)

/-- `re.finditer(placeholder, response_string)`: the start offsets of the
non-overlapping left-to-right matches of placeholder `k`. -/
def reFind (k : PKind) (s : Str) (pos : Nat) : List Nat := reFindF k s.length s pos

/-- The placeholder table in source order (line 125-135). -/
def placeholdersL : List PKind :=
  [.pc, .pnc, .pd, .pf, .pi, .po, .ps, .pu, .px]

/-- The generated regex: every placeholder kind substituted in table
order — `response_regex` after the loop on line 137-139. -/
def compileRegex (t : Str) : Str :=
  placeholdersL.foldl (fun r k => reSub k r) t

/-- `matched_placeholders`: for each kind in table order, the `(kind,
start offset)` pairs found by `re.finditer` on the **original** template. -/
def matchedPlaceholders (t : Str) : List (PKind × Nat) :=
  placeholdersL.foldl (fun acc k => acc ++ (reFind k t 0).map (fun p => (k, p))) []

/-- Stable insertion sort by start offset — Python's
`sorted(matched_placeholders, key=lambda m: m[1])` (line 141). -/
def insertByOff (x : PKind × Nat) : List (PKind × Nat) → List (PKind × Nat)
  | [] => [x]
  | y :: ys => if x.2 < y.2 then x :: y :: ys else y :: insertByOff x ys

def sortByOffset : List (PKind × Nat) → List (PKind × Nat)
  | [] => []
  | x :: xs => insertByOff x (sortByOffset xs)

/-!
## The parse functions of the placeholder table

`noop` for `%c`/`%Nc`/`%s`; `int` for `%d`/`%u`; `int(x, 0)` for `%i`;
`int(x, 8)` for `%o`; `int(x, 16)` for `%x`/`%X`; `float` for `%e/%E/%f/%g`.
`pyInt b` models Python 2's `int(text, b)` for the bases the table uses
(0 = auto-detect: `0x`/`0X` prefix → 16, leading `0` → 8, else 10). -/
inductive PFun
  | fnoop
  | fint (base : Nat)
  | ffloat
deriving DecidableEq, Repr

def kindPFun : PKind → PFun
  | .pc => .fnoop
  | .pnc => .fnoop
  | .pd => .fint 10
  | .pf => .ffloat
  | .pi => .fint 0
  | .po => .fint 8
  | .ps => .fnoop
  | .pu => .fint 10
  | .px => .fint 16

def digValHex (c : Char) : Option Nat :=
  if c.isDigit then some (c.toNat - '0'.toNat)
  else if 'a' ≤ c ∧ c ≤ 'f' then some (c.toNat - 'a'.toNat + 10)
  else if 'A' ≤ c ∧ c ≤ 'F' then some (c.toNat - 'A'.toNat + 10)
  else none

def digVal (b : Nat) (c : Char) : Option Nat :=
  match digValHex c with
  | some v => if v < b then some v else none
  | none => none

/-- Parse a non-empty run of digits in base `b`. -/
def parseDigits (b : Nat) (s : Str) : Option Nat :=
  match s with
  | [] => none
  | _ => s.foldl (fun acc c =>
      match acc, digVal b c with
      | some a, some v => some (a * b + v)
      | _, _ => none) (some 0)

/-- Magnitude part of Python 2 `int(text, b)` for `b ∈ {0, 8, 10, 16}`:
base 0 auto-detects (hex prefix, legacy leading-zero octal, else decimal);
base 16 accepts an optional `0x`/`0X` prefix. -/
def pyIntMag (b : Nat) (s : Str) : Option Nat :=
  if b = 0 then
    match s with
    | ['0'] => some 0
    | '0' :: c :: rest =>
      if c = 'x' ∨ c = 'X' then parseDigits 16 rest else parseDigits 8 (c :: rest)
    | _ => parseDigits 10 s
  else if b = 16 then
    match s with
    | '0' :: c :: rest => if c = 'x' ∨ c = 'X' then parseDigits 16 rest else parseDigits 16 s
    | _ => parseDigits 16 s
  else parseDigits b s

/-- Python 2 `int(text, b)`: optional sign, then the base-aware magnitude. -/
def pyInt (b : Nat) (s : Str) : Option Int :=
  match s with
  | '-' :: rest => (pyIntMag b rest).map (fun n => -(n : Int))
  | '+' :: rest => (pyIntMag b rest).map (fun n => (n : Int))
  | _ => (pyIntMag b s).map (fun n => (n : Int))

def digitsToNat (ds : Str) : Nat :=
  ds.foldl (fun a c => a * 10 + (c.toNat - '0'.toNat)) 0

/-- Python `float(text)` on the strings captured by the `%[eEfg]` regex:
optional sign, digits with optional fraction (or fraction alone), optional
exponent.  Values are exact rationals. -/
def pyFloat (s : Str) : Option ℚ :=
  let sr : Int × Str := match s with
    | '-' :: r => (-1, r)
    | '+' :: r => (1, r)
    | _ => (1, s)
  let sgn := sr.1
  let s0 := sr.2
  let ip := s0.takeWhile Char.isDigit
  let s1 := s0.drop ip.length
  let fs : Str × Str := match s1 with
    | '.' :: r => (r.takeWhile Char.isDigit, (r.drop (r.takeWhile Char.isDigit).length))
    | _ => ([], s1)
  let fp := fs.1
  let s2 := fs.2
  if ip.isEmpty && fp.isEmpty then none
  else
    let mnum : Int := (digitsToNat ip * 10 ^ fp.length + digitsToNat fp : Nat)
    let mden : Nat := 10 ^ fp.length
    match s2 with
    | [] => some (mkRat (sgn * mnum) mden)
    | e :: r =>
      if e = 'e' ∨ e = 'E' then
        let er : Bool × Str := match r with
          | '-' :: r2 => (true, r2)
          | '+' :: r2 => (false, r2)
          | _ => (false, r)
        let eds := er.2.takeWhile Char.isDigit
        if eds.isEmpty ∨ (er.2.drop eds.length) ≠ [] then none
        else
          if er.1 then some (mkRat (sgn * mnum) (mden * 10 ^ digitsToNat eds))
          else some (mkRat (sgn * mnum * 10 ^ digitsToNat eds) mden)
      else none

/-- Apply one parse function to one captured group text; `none` models the
parse function raising `ValueError`. -/
def applyPFun : PFun → Str → Option PyVal
  | .fnoop, s => some (.vstr s)
  | .fint b, s => (pyInt b s).map .vint
  | .ffloat, s => (pyFloat s).map .vfloat

/-!
## An executable model of Python `re` on the generated regexes

`Reg` is the regex AST; `parseR` parses the regex strings that
`compileRegex` generates (literals, `(...)` and `(?:...)` groups,
character classes with ranges and `\d`, the escapes `\d \S \.`,
quantifiers `? * + {n}`, alternation); `mexec` runs a backtracking,
greedy, leftmost search recording capture groups like `re.search`. -/
inductive RCls
  | rone (c : Char)
  | rrng (a b : Char)
  | rdig
  | rspc
deriving DecidableEq, Repr

def clsItemMatch (x : Char) : RCls → Bool
  | .rone c => x = c
  | .rrng a b => decide (a ≤ x) && decide (x ≤ b)
  | .rdig => x.isDigit
  | .rspc => isPySpace x

def clsMatch (neg : Bool) (items : List RCls) (x : Char) : Bool :=
  let m := items.any (clsItemMatch x)
  if neg then !m else m

inductive Reg
  | reps
  | rch (c : Char)
  | rcls (neg : Bool) (items : List RCls)
  | rdot
  | rcat (a b : Reg)
  | ralt (a b : Reg)
  | rstar (a : Reg)
  | ropt (a : Reg)
  | rgrp (idx : Nat) (a : Reg)
deriving DecidableEq, Repr

def regSize : Reg → Nat
  | .reps | .rch _ | .rcls _ _ | .rdot => 1
  | .rcat a b | .ralt a b => regSize a + regSize b + 1
  | .rstar a | .ropt a | .rgrp _ a => regSize a + 1

abbrev Caps := List (Nat × Str)

/-- Backtracking matcher in continuation style.  Alternation prefers the
left branch, `?`/`*` are greedy, a completed group records the consumed
substring (most recent first).  `fuel` only bounds the recursion; all
concrete uses supply an overapproximation. -/
def mexec : Nat → Reg → Str → Caps → (Str → Caps → Option (Str × Caps)) →
    Option (Str × Caps)
  | 0, _, _, _, _ => none
  | fuel + 1, r, s, cp, k =>
    match r with
    | .reps => k s cp
    | .rch c =>
      match s with
      | x :: xs => if x = c then k xs cp else none
      | [] => none
    | .rcls neg items =>
      match s with
      | x :: xs => if clsMatch neg items x then k xs cp else none
      | [] => none
    | .rdot =>
      match s with
      | x :: xs => if x ≠ '\n' then k xs cp else none
      | [] => none
    | .rcat a b => mexec fuel a s cp (fun s2 cp2 => mexec fuel b s2 cp2 k)
    | .ralt a b =>
      match mexec fuel a s cp k with
      | some res => some res
      | none => mexec fuel b s cp k
    | .ropt a =>
      match mexec fuel a s cp k with
      | some res => some res
      | none => k s cp
    | .rstar a =>
      match mexec fuel a s cp (fun s2 cp2 =>
          if s2.length < s.length then mexec fuel (.rstar a) s2 cp2 k else none) with
      | some res => some res
      | none => k s cp
    | .rgrp idx a =>
      mexec fuel a s cp (fun s2 cp2 => k s2 ((idx, s.take (s.length - s2.length)) :: cp2))

def fuelFor (r : Reg) (s : Str) : Nat :=
  (s.length + 1) * (regSize r + 2) + regSize r + 16

/-- Try a match anchored at the current position. -/
def searchAt (fuel : Nat) (r : Reg) (s : Str) : Option Caps :=
  match mexec fuel r s [] (fun s2 cp => some (s2, cp)) with
  | some (_, cp) => some cp
  | none => none

/-- `re.search`: leftmost match — try each start position left to right. -/
def reSearchGo (fuel : Nat) (r : Reg) : Str → Option Caps
  | [] => searchAt fuel r []
  | c :: rest =>
    match searchAt fuel r (c :: rest) with
    | some cp => some cp
    | none => reSearchGo fuel r rest

def capLookup (i : Nat) : Caps → Option Str
  | [] => none
  | (j, v) :: rest => if j = i then some v else capLookup i rest

/-- `{n}` repetition, unrolled. -/
def repN : Nat → Reg → Reg
  | 0, _ => .reps
  | n + 1, a => .rcat a (repN n a)

/-- Postfix quantifier after an atom. -/
def applyQuant (a : Reg) (s : Str) (g : Nat) : Option (Reg × Str × Nat) :=
  match s with
  | '?' :: rest => some (.ropt a, rest, g)
  | '*' :: rest => some (.rstar a, rest, g)
  | '+' :: rest => some (.rcat a (.rstar a), rest, g)
  | '\x7b' :: rest =>
    let ds := rest.takeWhile Char.isDigit
    if ds.isEmpty = false ∧ (rest.drop ds.length).head? = some '\x7d' then
      some (repN (digitsToNat ds) a, rest.drop (ds.length + 1), g)
    else none
  | _ => some (a, s, g)

/-- Character class body: items until the closing `]`. -/
def parseClsItems : Str → Option (List RCls × Str)
  | [] => none
  | ']' :: rest => some ([], rest)
  | '\\' :: c :: rest => do
    let (items, r2) ← parseClsItems rest
    some ((if c = 'd' then RCls.rdig else RCls.rone c) :: items, r2)
  | a :: '-' :: b :: rest =>
    if b = ']' then some ([.rone a, .rone '-'], rest)
    else do
      let (items, r2) ← parseClsItems rest
      some (.rrng a b :: items, r2)
  | a :: rest => do
    let (items, r2) ← parseClsItems rest
    some (.rone a :: items, r2)

inductive PMode
  | malt | mseq | matom
deriving DecidableEq, Repr

/-- Recursive-descent parser for the generated regex strings.  `g` is the
running count of capturing groups; Python numbers them by the textual order
of their opening parentheses. -/
def parseR : Nat → PMode → Str → Nat → Option (Reg × Str × Nat)
  | 0, _, _, _ => none
  | fuel + 1, .malt, s, g => do
    let (r1, s1, g1) ← parseR fuel .mseq s g
    match s1 with
    | '|' :: rest => do
      let (r2, s2, g2) ← parseR fuel .malt rest g1
      some (.ralt r1 r2, s2, g2)
    | _ => some (r1, s1, g1)
  | fuel + 1, .mseq, s, g =>
    match s with
    | [] => some (.reps, [], g)
    | ')' :: _ => some (.reps, s, g)
    | '|' :: _ => some (.reps, s, g)
    | _ => do
      let (r1, s1, g1) ← parseR fuel .matom s g
      let (r2, s2, g2) ← parseR fuel .mseq s1 g1
      some (.rcat r1 r2, s2, g2)
  | fuel + 1, .matom, s, g =>
    match s with
    | '(' :: '?' :: ':' :: rest => do
      let (r1, s1, g1) ← parseR fuel .malt rest g
      match s1 with
      | ')' :: rest2 => applyQuant r1 rest2 g1
      | _ => none
    | '(' :: rest => do
      let (r1, s1, g1) ← parseR fuel .malt rest (g + 1)
      match s1 with
      | ')' :: rest2 => applyQuant (.rgrp (g + 1) r1) rest2 g1
      | _ => none
    | '[' :: rest =>
      let nr : Bool × Str := match rest with
        | '^' :: r2 => (true, r2)
        | _ => (false, rest)
      match parseClsItems nr.2 with
      | some (items, rest2) => applyQuant (.rcls nr.1 items) rest2 g
      | none => none
    | '\\' :: c :: rest =>
      let a := if c = 'd' then Reg.rcls false [.rdig]
        else if c = 'S' then Reg.rcls true [.rspc]
        else Reg.rch c
      applyQuant a rest g
    | '.' :: rest => applyQuant Reg.rdot rest g
    | c :: rest =>
      if c = '*' || c = '+' || c = '?' || c = ')' || c = '|' || c = '\\' then none
      else applyQuant (Reg.rch c) rest g
    | [] => none

/-- Parse a complete regex string; returns the AST and the number of
capturing groups. -/
def parseRegTop (s : Str) : Option (Reg × Nat) :=
  match parseR (4 * s.length + 16) .malt s 0 with
  | some (r, [], g) => some (r, g)
  | _ => none

/-!
## `MessageBusInstrument.parsed_query` (lines 105-159)

The `ValueError`s raised on lines 148 and 159 are modelled structurally;
`pqErrMsg` renders the exact message format strings of the source. -/
inductive PQErr
  | reErr (pattern : Str)
  | matchErr (cmd reply template pattern : Str)
  | convErr (cmd reply : Str)
  | busErr (e : QErr)
deriving DecidableEq, Repr

/-- The source's `ValueError` message text for the two raise sites. -/
def pqErrMsg : PQErr → Str
  | .matchErr cmd reply template pattern =>
    ("Stage response to '".toList) ++ cmd ++ ("' ('".toList) ++ reply
      ++ ("') wasn't matched by /".toList) ++ template
      ++ ("/ (generated regex /".toList) ++ pattern ++ ['/']
  | .convErr cmd reply =>
    ("Stage response to ".toList) ++ cmd ++ (" ('".toList) ++ reply
      ++ ("') couldn't be parsed by the supplied function".toList)
  | _ => []

inductive PyRet
  | scalar (v : PyVal)
  | seq (vs : List PyVal)
deriving DecidableEq, Repr

/-- The `parse_function` argument: `None` (auto), a single callable, or a
list of callables. -/
inductive PFArg
  | auto
  | one (f : PFun)
  | many (fs : List PFun)

/-- The auto-computed parser list: placeholders sorted by their occurrence
offset in the original template (line 141). -/
def autoParsers (response_string : Str) : List PFun :=
  (sortByOffset (matchedPlaceholders response_string)).map (fun m => kindPFun m.1)

/-- `[f(g) for f, g in zip(parse_function, res.groups())]`: positional zip
(truncating at the shorter list), `none` when a parse function raises. -/
def zipApply : List PFun → List (Option Str) → Option (List PyVal)
  | [], _ => some []
  | _ :: _, [] => some []
  | _ :: _, none :: _ => none
  | f :: fs, some gtext :: gs => do
    let v ← applyPFun f gtext
    let vs ← zipApply fs gs
    some (v :: vs)

def MBI.parsed_query (i : MBI) (query_string : Str)
    (response_string : Str := "%d".toList) (parse_function : PFArg := .auto) :
    Except PQErr PyRet × MBI :=
  let response_regex := compileRegex response_string
  let pfs : List PFun :=
    match parse_function with
    | .auto => autoParsers response_string
    | .one f => [f]
    | .many fs => fs
  match i.query query_string with
  | (.error e, i2) => (.error (.busErr e), i2)
  | (.ok reply, i2) =>
    match parseRegTop response_regex with
    | none => (.error (.reErr response_regex), i2)
    | some (r, n) =>
      match reSearchGo (fuelFor r reply) r reply with
      | none => (.error (.matchErr query_string reply response_string response_regex), i2)
      | some cp =>
        let groups : List (Option Str) := (List.range n).map (fun j => capLookup (j + 1) cp)
        match zipApply pfs groups with
        | none => (.error (.convErr query_string reply), i2)
        | some vals =>
          match vals with
          | [v] => (.ok (.scalar v), i2)
          | _ => (.ok (.seq vals), i2)

def MBI.int_query (i : MBI) (qs : Str) : Except PQErr PyRet × MBI :=
  i.parsed_query qs ("%d".toList)

def MBI.float_query (i : MBI) (qs : Str) : Except PQErr PyRet × MBI :=
  i.parsed_query qs ("%f".toList)

/-!
## The property descriptors' `__get__` (lines 182-193 and 219-237) -/
inductive DType
  | dfloat | dint | dstr
deriving DecidableEq, Repr

inductive GetErr
  | attrErr
deriving DecidableEq, Repr

/-- A property read returns either the raw `query` string (dtype `str`) or
a parsed result (`float_query` / `int_query`). -/
inductive QPGetRes
  | rq (r : Except QErr Str)
  | rp (r : Except PQErr PyRet)
deriving DecidableEq, Repr

def qp_get (dtype : DType) (get_cmd : Option Str) (obj : MBI) :
    Except GetErr QPGetRes × MBI :=
  match get_cmd with
  | none => (.error .attrErr, obj)
  | some cmd =>
    match dtype with
    | .dfloat =>
      let r := obj.float_query cmd
      (.ok (.rp r.1), r.2)
    | .dint =>
      let r := obj.int_query cmd
      (.ok (.rp r.1), r.2)
    | .dstr =>
      let r := obj.query cmd
      (.ok (.rq r.1), r.2)

/-- `queried_channel_property.__get__`: formats the channel index into the
get-template and delegates the query to the **parent** bus; the object's
own transport is untouched. -/
def qcp_get (dtype : DType) (get_cmd : Option Str) (obj : ChInstr) :
    Except GetErr QPGetRes × ChInstr :=
  match get_cmd with
  | none => (.error .attrErr, obj)
  | some cmd =>
    let message :=
      if strContains cmd ('\x7b' :: ['0']) then pyFormatOne (intToStr obj.ch) cmd
      else if strContains cmd ['%'] then pyModGo [.vint obj.ch] cmd
      else cmd
    match dtype with
    | .dfloat =>
      let r := obj.parent.float_query message
      (.ok (.rp r.1), { obj with parent := r.2 })
    | .dint =>
      let r := obj.parent.int_query message
      (.ok (.rp r.1), { obj with parent := r.2 })
    | .dstr =>
      let r := obj.parent.query message
      (.ok (.rq r.1), { obj with parent := r.2 })

/-- Condition for claim C3: the generated regex is well-formed (compiles in
the modelled regex subset) but `re.search` finds no match in the reply. -/
def matchFails (t reply : Str) : Bool :=
  match parseRegTop (compileRegex t) with
  | none => false
  | some (r, _) => (reSearchGo (fuelFor r reply) r reply).isNone

/-!
## Segment view of the template compiler

To reason about the order of the capture groups that the substitution loop
inserts, the working string is viewed as a list of segments: untouched
literal pieces of the original template (with their original offsets) and
groups inserted for placeholder occurrences (with the original offset and
length of the occurrence they replaced).  `segStep`/`segCompile` mirror
`reSub`/`compileRegex` segment-wise; `flattenSegs` recovers the working
string. -/
inductive Seg
  | lit (off : Nat) (cs : Str)
  | grp (k : PKind) (off n : Nat) (repl : Str)
deriving DecidableEq, Repr

/-- Prepend one untouched character, merging with a leading literal piece
so literal pieces stay maximal. -/
def consL (c : Char) (off : Nat) : List Seg → List Seg
  | Seg.lit _ cs :: ss => Seg.lit off (c :: cs) :: ss
  | ss => Seg.lit off [c] :: ss

/-- Fuel-indexed segment scan of one literal piece (mirrors `reSubF`). -/
def segSubLitF (k : PKind) : Nat → Nat → Str → List Seg
  | 0, _, _ => []
  | _ + 1, _, [] => []
  | fuel + 1, off, c :: rest =>
    match phMatch k (c :: rest) with
    | some (n, repl) =>
      Seg.grp k off n repl :: segSubLitF k fuel (off + n) (rest.drop (n - 1))
    | none => consL c off (segSubLitF k fuel (off + 1) rest)

def segSubLit (k : PKind) (off : Nat) (cs : Str) : List Seg :=
  segSubLitF k cs.length off cs

/-- One substitution pass (one placeholder kind) on the segment list. -/
def segStep (k : PKind) : List Seg → List Seg
  | [] => []
  | Seg.lit off cs :: ss => segSubLit k off cs ++ segStep k ss
  | Seg.grp k2 off n repl :: ss => Seg.grp k2 off n repl :: segStep k ss

/-- All placeholder kinds processed in table order, starting from the whole
template as a single literal piece. -/
def segCompile (t : Str) : List Seg :=
  placeholdersL.foldl (fun segs k => segStep k segs) [Seg.lit 0 t]

/-- Render the segments back into the working regex string. -/
def flattenSegs : List Seg → Str
  | [] => []
  | Seg.lit _ cs :: ss => cs ++ flattenSegs ss
  | Seg.grp _ _ _ repl :: ss => ('(' :: repl ++ [')']) ++ flattenSegs ss

/-- The inserted capture groups in their left-to-right textual order, as
`(placeholder kind, original start offset)` pairs. -/
def segPlaceholders : List Seg → List (PKind × Nat)
  | [] => []
  | Seg.lit _ _ :: ss => segPlaceholders ss
  | Seg.grp k off _ _ :: ss => (k, off) :: segPlaceholders ss

/-- The kinds of the group segments present. -/
def grpKinds : List Seg → List PKind
  | [] => []
  | Seg.lit _ _ :: ss => grpKinds ss
  | Seg.grp k _ _ _ :: ss => k :: grpKinds ss

/-- The occurrences of placeholder `k` inside the literal pieces. -/
def segsFindK (k : PKind) : List Seg → List Nat
  | [] => []
  | Seg.lit off cs :: ss => reFind k cs off ++ segsFindK k ss
  | Seg.grp _ _ _ _ :: ss => segsFindK k ss

/-- No two adjacent literal pieces (literal pieces are maximal). -/
def noAdjLit : List Seg → Bool
  | Seg.lit _ _ :: Seg.lit _ _ :: _ => false
  | _ :: ss => noAdjLit ss
  | [] => true

/-- A string with no `%` character. -/
def pctFree (s : Str) : Bool := s.all (fun c => c ≠ '%')

/-- All group replacements are `%`-free. -/
def grpReplsOk : List Seg → Bool
  | [] => true
  | Seg.lit _ _ :: ss => grpReplsOk ss
  | Seg.grp _ _ _ repl :: ss => pctFree repl && grpReplsOk ss

/-- Characters that can occur in a placeholder match after the leading `%`:
these are exactly the characters that could extend a failed placeholder
match across a boundary. -/
def contChar (c : Char) : Bool :=
  c.isDigit || c = 'c' || c = 'd' || c = 'e' || c = 'E' || c = 'f' || c = 'g'
    || c = 'i' || c = 'o' || c = 's' || c = 'u' || c = 'x' || c = 'X'

/-- The head of `y` (if any) cannot continue a placeholder match. -/
def headNotCont (y : Str) : Prop :=
  ∀ c, y.head? = some c → contChar c = false

/-- The character a placeholder kind requires right after its `%`. -/
def kindHead : PKind → Char → Bool
  | .pc, c => c = 'c'
  | .pnc, c => c.isDigit
  | .pd, c => c = 'd'
  | .pf, c => c = 'e' || c = 'E' || c = 'f' || c = 'g'
  | .pi, c => c = 'i'
  | .po, c => c = 'o'
  | .ps, c => c = 's'
  | .pu, c => c = 'u'
  | .px, c => c = 'x' || c = 'X'

/-- `Tiling t off segs`: the segments tile the original template `t` from
offset `off` to its end — literal pieces are verbatim slices of `t` and
every group segment sits at an actual placeholder occurrence of `t`. -/
inductive Tiling (t : Str) : Nat → List Seg → Prop
  | nil (off : Nat) (h : off = t.length) : Tiling t off []
  | lit (off : Nat) (cs : Str) (ss : List Seg)
      (hcs : t.drop off = cs ++ t.drop (off + cs.length))
      (hlen : off + cs.length ≤ t.length)
      (ht : Tiling t (off + cs.length) ss) : Tiling t off (Seg.lit off cs :: ss)
  | grp (k : PKind) (off n : Nat) (repl : Str) (ss : List Seg)
      (hm : phMatch k (t.drop off) = some (n, repl))
      (ht : Tiling t (off + n) ss) : Tiling t off (Seg.grp k off n repl :: ss)

/-! ## Theorems -/

theorem strStarts_append (n b : Str) : strStarts n (n ++ b) = true := by
  induction n with
  | nil => rfl
  | cons c cs ih => simp [strStarts, ih]

theorem strContains_starts (hay n : Str) (h : strStarts n hay = true) :
    strContains hay n = true := by
  rw [strContains.eq_def, h]
  rfl

theorem strContains_infix (a n b : Str) : strContains (a ++ n ++ b) n = true := by
  induction a with
  | nil => exact strContains_starts _ _ (by simpa using strStarts_append n b)
  | cons c cs ih =>
    rw [strContains.eq_def]
    split
    · rfl
    · simpa using ih

/-- The final instrument state of `parsed_query` is the state after its
internal `query` call: parsing never touches the transport again. -/
theorem parsed_query_state (i : MBI) (qs t : Str) (pfa : PFArg) :
    (i.parsed_query qs t pfa).2 = (i.query qs).2 := by
  rw [MBI.parsed_query.eq_def]
  rcases h : i.query qs with ⟨res, i2⟩
  cases res with
  | error e => simp
  | ok reply =>
    simp only
    split
    · rfl
    split
    · rfl
    split
    · rfl
    split <;> rfl

/-- A (non-multiline) `query` writes exactly the command to the transport. -/
theorem query_writes (i : MBI) (qs : Str) :
    (i.query qs).2.writes = i.writes ++ [qs] := by
  rw [MBI.query]
  simp only [MBI.flush_input_buffer, MBI.write, MBI.readline]
  rcases i.lines with _ | ⟨l, ls⟩ <;> simp

/-- Claim C3: whenever the raw reply does not match the compiled pattern,
`parsed_query` fails with the `ValueError` of line 148, carrying all four of
the command, the raw reply, the original template and the generated regex
(and the rendered message contains the literal command and reply);
in particular template `"%d"` against reply `"abc"` produces that error. -/
theorem c3_mismatch_error_fields :
    (∀ (i : MBI) (qs t : Str) (pfa : PFArg) (reply : Str) (i2 : MBI),
      i.query qs = (.ok reply, i2) →
      matchFails t reply = true →
      i.parsed_query qs t pfa
        = (.error (.matchErr qs reply t (compileRegex t)), i2))
    ∧ (∀ cmd reply template pattern : Str,
        strContains (pqErrMsg (.matchErr cmd reply template pattern)) reply = true
        ∧ strContains (pqErrMsg (.matchErr cmd reply template pattern)) cmd = true)
    ∧ ((⟨["abc".toList], [], none⟩ : MBI).parsed_query ("CMD?".toList) ("%d".toList)).1
        = .error (.matchErr ("CMD?".toList) ("abc".toList) ("%d".toList)
            (compileRegex ("%d".toList))) := by
  refine ⟨?_, ?_, by decide⟩
  · intro i qs t pfa reply i2 hq hf
    rw [MBI.parsed_query.eq_def, hq]
    simp only
    rw [matchFails.eq_def] at hf
    rcases hp : parseRegTop (compileRegex t) with _ | ⟨r, n⟩
    · rw [hp] at hf
      simp at hf
    · rw [hp] at hf
      simp only at hf
      dsimp only
      rcases hs : reSearchGo (fuelFor r reply) r reply with _ | cp
      · rfl
      · rw [hs] at hf
        simp [Option.isNone] at hf
  · intro cmd reply template pattern
    constructor
    · rw [pqErrMsg]
      have : ("Stage response to '".toList) ++ cmd ++ ("' ('".toList) ++ reply
          ++ ("') wasn't matched by /".toList) ++ template
          ++ ("/ (generated regex /".toList) ++ pattern ++ ['/']
          = (("Stage response to '".toList) ++ cmd ++ ("' ('".toList)) ++ reply
            ++ (("') wasn't matched by /".toList) ++ template
              ++ ("/ (generated regex /".toList) ++ pattern ++ ['/']) := by
        simp
      rw [this]
      exact strContains_infix _ _ _
    · rw [pqErrMsg]
      have : ("Stage response to '".toList) ++ cmd ++ ("' ('".toList) ++ reply
          ++ ("') wasn't matched by /".toList) ++ template
          ++ ("/ (generated regex /".toList) ++ pattern ++ ['/']
          = ("Stage response to '".toList) ++ cmd
            ++ (("' ('".toList) ++ reply ++ ("') wasn't matched by /".toList) ++ template
              ++ ("/ (generated regex /".toList) ++ pattern ++ ['/']) := by
        simp
      rw [this]
      exact strContains_infix _ _ _

/-- Witness for `c3_mismatch_error_fields`: the general mismatch rule
applied to template `"%d"`, reply `"abc"`, command `"CMD?"`. -/
theorem c3_mismatch_error_fields_witness :
    (⟨["abc".toList], [], none⟩ : MBI).parsed_query ("CMD?".toList) ("%d".toList) PFArg.auto
      = (.error (.matchErr ("CMD?".toList) ("abc".toList) ("%d".toList)
          (compileRegex ("%d".toList))), ⟨[], [("CMD?".toList)], none⟩) :=
  c3_mismatch_error_fields.1 _ _ _ _ ("abc".toList) _ (by decide) (by decide)

/-- Claim C4: integer placeholder parsing is base-aware: `%d` and `%u` parse
base 10, `%i` auto-detects the base from the prefix (`0x`/`0X` → 16, leading
`0` → 8, else 10), `%o` forces base 8, `%x`/`%X` force base 16; through the
full query pipeline, `%i` on `"0x1F"` gives 31, on `"017"` gives 15, on
`"19"` gives 19. -/
theorem c4_base_aware_integer_parsing :
    (∀ s, applyPFun (kindPFun .pd) s = (pyInt 10 s).map .vint)
    ∧ (∀ s, applyPFun (kindPFun .pi) s = (pyInt 0 s).map .vint)
    ∧ (∀ s, applyPFun (kindPFun .po) s = (pyInt 8 s).map .vint)
    ∧ (∀ s, applyPFun (kindPFun .px) s = (pyInt 16 s).map .vint)
    ∧ (∀ s, applyPFun (kindPFun .pu) s = (pyInt 10 s).map .vint)
    ∧ ((⟨["0x1F".toList], [], none⟩ : MBI).parsed_query ("Q".toList) ("%i".toList)).1
        = .ok (.scalar (.vint 31))
    ∧ ((⟨["017".toList], [], none⟩ : MBI).parsed_query ("Q".toList) ("%i".toList)).1
        = .ok (.scalar (.vint 15))
    ∧ ((⟨["19".toList], [], none⟩ : MBI).parsed_query ("Q".toList) ("%i".toList)).1
        = .ok (.scalar (.vint 19))
    ∧ ((⟨["-12".toList], [], none⟩ : MBI).parsed_query ("Q".toList) ("%d".toList)).1
        = .ok (.scalar (.vint (-12)))
    ∧ ((⟨["17".toList], [], none⟩ : MBI).parsed_query ("Q".toList) ("%o".toList)).1
        = .ok (.scalar (.vint 15))
    ∧ ((⟨["1F".toList], [], none⟩ : MBI).parsed_query ("Q".toList) ("%x".toList)).1
        = .ok (.scalar (.vint 31))
    ∧ ((⟨["0x1F".toList], [], none⟩ : MBI).parsed_query ("Q".toList) ("%X".toList)).1
        = .ok (.scalar (.vint 31))
    ∧ ((⟨["19".toList], [], none⟩ : MBI).parsed_query ("Q".toList) ("%u".toList)).1
        = .ok (.scalar (.vint 19)) :=
  ⟨fun _ => rfl, fun _ => rfl, fun _ => rfl, fun _ => rfl, fun _ => rfl,
   by decide, by decide, by decide, by decide, by decide, by decide, by decide, by decide⟩

/-- Claim C8: reading a channel-bound property substitutes the channel index
into the get-template and issues the resulting command through the
**parent** object's query machinery; with channel 3 and get-template
`"G{0}?"`, the command `"G3?"` is written to the parent's transport (for
every declared dtype) and the object's own transport is untouched. -/
theorem c8_channel_property_uses_parent :
    ∀ (dtype : DType) (parent own : MBI),
      ((qcp_get dtype (some ("G{0}?".toList)) ⟨3, parent, own⟩).2.parent.writes
          = parent.writes ++ [("G3?".toList)])
      ∧ (qcp_get dtype (some ("G{0}?".toList)) ⟨3, parent, own⟩).2.own = own
      ∧ (qcp_get dtype (some ("G{0}?".toList)) ⟨3, parent, own⟩).2.ch = 3 := by
  intro dtype parent own
  have hmsg : (if strContains ("G{0}?".toList) ('\x7b' :: ['0']) = true then
      pyFormatOne (intToStr (3 : Int)) ("G{0}?".toList)
      else if strContains ("G{0}?".toList) ['%'] = true then
        pyModGo [.vint (3 : Int)] ("G{0}?".toList)
      else ("G{0}?".toList)) = ("G3?".toList) := by decide
  cases dtype with
  | dfloat =>
    refine ⟨?_, rfl, rfl⟩
    show ((parent.float_query _).2).writes = _
    rw [MBI.float_query, parsed_query_state, query_writes]
    dsimp only
    rw [hmsg]
  | dint =>
    refine ⟨?_, rfl, rfl⟩
    show ((parent.int_query _).2).writes = _
    rw [MBI.int_query, parsed_query_state, query_writes]
    dsimp only
    rw [hmsg]
  | dstr =>
    refine ⟨?_, rfl, rfl⟩
    show ((parent.query _).2).writes = _
    rw [query_writes]
    dsimp only
    rw [hmsg]

/-- Claim C2: `read_multiline` reads one line at a time, concatenating, and
stops at the first line containing the terminator or at an empty line
(stream exhausted), whichever comes first.  On the transport
`["foo\n", "bar\n", "END\n"]` with terminator `"END"` it returns
`"foo\nbar\nEND\n"` after exactly three reads (the fourth line slot is never
read); in general the loop performs no further read once the last line
contains the terminator, or once the last line is empty. -/
theorem c2_read_multiline_stops_at_terminator :
    (read_multiline ("END".toList) ["foo\n".toList, "bar\n".toList, "END\n".toList]
      = ("foo\nbar\nEND\n".toList, 3, []))
    ∧ (∀ (term resp l : Str) (lines : List Str),
        strContains l term = true → rmlGo term lines l resp = (resp, 0, lines))
    ∧ (∀ (term resp : Str) (lines : List Str),
        rmlGo term lines [] resp = (resp, 0, lines)) := by
  refine ⟨by decide, ?_, ?_⟩
  · intro term resp l lines h
    rw [rmlGo.eq_def]
    simp [h]
  · intro term resp lines
    rw [rmlGo.eq_def]
    simp

/-- Witness for `c2_read_multiline_stops_at_terminator`: the terminator-line
stopping rule applied at a concrete input. -/
theorem c2_read_multiline_stops_at_terminator_witness :
    rmlGo ("END".toList) ["zzz".toList] ("xENDy".toList) ("r".toList)
      = ("r".toList, 0, ["zzz".toList]) :=
  c2_read_multiline_stops_at_terminator.2.1 _ _ _ _ (by decide)

/-- Claim C10: because `read_multiline` initialises `last_line` to the
literal `"dummy"`, every terminator that is a substring of `"dummy"`
(including the empty string) makes it return `""` immediately with zero
reads and the transport untouched; any other terminator causes at least one
read. -/
theorem c10_dummy_initial_shortcut :
    (∀ (term : Str) (lines : List Str), strContains ("dummy".toList) term = true →
        read_multiline term lines = ([], 0, lines))
    ∧ (∀ (term : Str) (lines : List Str), strContains ("dummy".toList) term = false →
        1 ≤ (read_multiline term lines).2.1) := by
  constructor
  · intro term lines h
    rw [read_multiline, rmlGo.eq_def]
    simp at h
    simp [h]
  · intro term lines h
    rw [read_multiline, rmlGo.eq_def]
    simp at h
    simp only [h, Bool.false_or]
    cases lines with
    | nil => simp [h]
    | cons l ls => simp [h]

/-- Witness for `c10_dummy_initial_shortcut`: both halves at concrete
inputs — terminator `"um"` (a substring of `"dummy"`) triggers zero reads,
terminator `"END"` triggers at least one. -/
theorem c10_dummy_initial_shortcut_witness :
    read_multiline ("um".toList) ["foo\n".toList] = ([], 0, ["foo\n".toList])
    ∧ 1 ≤ (read_multiline ("END".toList) ["foo\n".toList]).2.1 :=
  ⟨c10_dummy_initial_shortcut.1 _ _ (by decide),
   c10_dummy_initial_shortcut.2 _ _ (by decide)⟩

/-- Claim C5, counterexample: the source strips the line with Python's
`str.strip()` (all leading and trailing whitespace), not just the single
trailing line terminator.  For the line `" x \n"` the code returns `"x"`,
while removing only the trailing terminator would give `" x "`. -/
theorem c5_counterexample :
    ((⟨[" x \n".toList], [], none⟩ : MBI).query ("Q".toList)).1 = .ok ("x".toList)
    ∧ stripSingleTerminator (" x \n".toList) = " x ".toList
    ∧ ("x".toList ≠ " x ".toList) := by
  refine ⟨by decide, by decide, by decide⟩

/-- Claim C5, amended: for every non-multiline query, the returned string is
the single line read from the transport with **all leading and trailing
whitespace** removed (Python `str.strip()`), and exactly one line is
consumed; reading an exhausted transport yields the empty string. -/
theorem c5_query_strips_whitespace :
    (∀ (line : Str) (rest writes : List Str) (tl : Option Str) (qs : Str),
      (MBI.mk (line :: rest) writes tl).query qs
        = (.ok (pyStrip line), MBI.mk rest (writes ++ [qs]) tl))
    ∧ (∀ (writes : List Str) (tl : Option Str) (qs : Str),
      (MBI.mk [] writes tl).query qs
        = (.ok [], MBI.mk [] (writes ++ [qs]) tl)) := by
  constructor
  · intro line rest writes tl qs
    rfl
  · intro writes tl qs
    rfl


/-- Claim C6, counterexample: a set-template containing both brace-style and
%-style markers does **not** fail; the `'{0' in message` check wins, the
template is brace-formatted and the result is written to the transport.
For `set_cmd = "sx {0} %s"` and value `"y"`, `"sx y %s"` is sent. -/
theorem c6_counterexample :
    qp_set (some ("sx {0} %s".toList)) none ⟨[], [], none⟩ (.vstr ("y".toList))
      = (.ok (), ["sx y %s".toList]) := by decide

/-- A brace-free prefix passes through `str.format` substitution verbatim. -/
theorem pyFormatOne_nobrace (arg : Str) : ∀ (a rest : Str), '\x7b' ∉ a →
    pyFormatOne arg (a ++ rest) = a ++ pyFormatOne arg rest := by
  intro a
  induction a with
  | nil =>
    intro rest _
    rfl
  | cons c cs ih =>
    intro rest ha
    have hc : ¬ (c = '\x7b') := by
      intro h
      exact ha (by simp [h])
    have hih := ih rest (fun hm => ha (List.mem_cons_of_mem c hm))
    rw [List.cons_append, pyFormatOne.eq_def]
    split
    · rename_i r heq
      injection heq with h1 h2
      exact absurd h1 hc
    · rename_i c2 r2 heq
      injection heq with h1 h2
      rw [← h1, ← h2, hih]
      rfl
    · rename_i x heq
      exact List.noConfusion heq

/-- Claim C6, amended: a set-template containing both substitution styles is
not rejected; the `'{0' in message` check takes precedence over the `'%'`
check.  For a template whose single replacement field `{0}` is well formed
and whose surrounding literal text contains no brace characters (so that
Python's `str.format` succeeds on it, `%`-style markers included verbatim),
the write succeeds and the brace-formatted command — the literal text with
the value substituted for `{0}` — is sent to the transport; no error of any
kind is raised. -/
theorem c6_mixed_template_brace_precedence :
    ∀ (a b : Str) (obj : MBI) (value : PyVal),
      '\x7b' ∉ a → '\x7d' ∉ a → '\x7b' ∉ b → '\x7d' ∉ b →
      qp_set (some (a ++ '\x7b' :: '0' :: '\x7d' :: b)) none obj value
        = (.ok (), [a ++ pyStr value ++ b]) := by
  intro a b obj value ha1 ha2 hb1 hb2
  have hcont : strContains (a ++ '\x7b' :: '0' :: '\x7d' :: b) ('\x7b' :: ['0']) = true := by
    have hsh : a ++ '\x7b' :: '0' :: '\x7d' :: b
        = a ++ ('\x7b' :: ['0']) ++ ('\x7d' :: b) := by simp
    rw [hsh]
    exact strContains_infix _ _ _
  have hb : pyFormatOne (pyStr value) b = b := by
    have h2 := pyFormatOne_nobrace (pyStr value) b [] hb1
    simpa [pyFormatOne] using h2
  have hfmt : pyFormatOne (pyStr value) (a ++ '\x7b' :: '0' :: '\x7d' :: b)
      = a ++ pyStr value ++ b := by
    rw [pyFormatOne_nobrace (pyStr value) a ('\x7b' :: '0' :: '\x7d' :: b) ha1]
    rw [pyFormatOne, hb]
    simp
  simp [qp_set, hcont, hfmt]

/-- Witness for `c6_mixed_template_brace_precedence`: the mixed-style
template `"sx {0} %s"` with value `7` sends `"sx 7 %s"`. -/
theorem c6_mixed_template_brace_precedence_witness :
    qp_set (some (("sx ".toList) ++ '\x7b' :: '0' :: '\x7d' :: (" %s".toList))) none
      (⟨[], [], none⟩ : MBI) (.vint 7)
      = (.ok (), [("sx ".toList) ++ pyStr (.vint 7) ++ (" %s".toList)]) :=
  c6_mixed_template_brace_precedence ("sx ".toList) (" %s".toList) _ _
    (by decide) (by decide) (by decide) (by decide)

/-- Claim C7: for a write through a bound property with a configured
validator, the validator is consulted on `(instance, value)` before any
formatting or sending; if it rejects the value the write fails with the
validation error and nothing at all is written to the transport. -/
theorem c7_validator_short_circuit :
    ∀ (cmd : Str) (f : MBI → PyVal → Bool) (obj : MBI) (value : PyVal),
      f obj value = false →
      qp_set (some cmd) (some f) obj value = (.error .validationErr, []) := by
  intro cmd f obj value h
  simp [qp_set, h]

/-- Witness for `c7_validator_short_circuit`: a validator rejecting every
value blocks the write of an otherwise well-formed command. -/
theorem c7_validator_short_circuit_witness :
    qp_set (some ("sx {0}".toList)) (some (fun _ _ => false)) ⟨[], [], none⟩ (.vint 3)
      = (.error .validationErr, []) :=
  c7_validator_short_circuit _ _ _ _ rfl

/-! ### Character-level facts about placeholder matching -/

theorem twAppend (p : Char → Bool) (a y : Str) :
    (a ++ y).takeWhile p
      = if a.takeWhile p = a then a ++ y.takeWhile p else a.takeWhile p := by
  induction a with
  | nil => simp
  | cons c a ih =>
    by_cases hpc : p c
    · rw [List.cons_append, List.takeWhile_cons, if_pos hpc, List.takeWhile_cons, if_pos hpc,
        ih]
      by_cases h : a.takeWhile p = a
      · rw [if_pos h, if_pos (by rw [h]), List.cons_append]
      · rw [if_neg h, if_neg (by intro hh; injection hh with h1 h2; exact h h2)]
    · rw [List.cons_append, List.takeWhile_cons, if_neg hpc, List.takeWhile_cons, if_neg hpc]
      rw [if_neg (by simp)]

theorem twSplit (p : Char → Bool) (l : Str) :
    l.takeWhile p ++ l.drop (l.takeWhile p).length = l := by
  induction l with
  | nil => rfl
  | cons c l ih =>
    by_cases hpc : p c
    · simp [List.takeWhile_cons, hpc, ih]
    · simp [List.takeWhile_cons, hpc]

theorem twMem (p : Char → Bool) (l : Str) (x : Char) (h : x ∈ l.takeWhile p) :
    p x = true := by
  induction l with
  | nil => simp [List.takeWhile] at h
  | cons c l ih =>
    by_cases hpc : p c
    · rw [List.takeWhile_cons, if_pos hpc] at h
      rcases List.mem_cons.mp h with h1 | h2
      · exact h1 ▸ hpc
      · exact ih h2
    · rw [List.takeWhile_cons, if_neg hpc] at h
      simp at h

theorem twHead (p : Char → Bool) (l : Str) (h : l.takeWhile p ≠ []) :
    ∃ c l2, l = c :: l2 ∧ p c = true := by
  cases l with
  | nil => simp [List.takeWhile] at h
  | cons c l2 =>
    by_cases hpc : p c
    · exact ⟨c, l2, rfl, hpc⟩
    · rw [List.takeWhile_cons, if_neg hpc] at h
      simp at h

theorem phAfter_nil (k : PKind) : phAfter k [] = none := by
  cases k <;> simp [phAfter]

theorem phAfter_head (k : PKind) (rest : Str) (n : Nat) (repl : Str)
    (h : phAfter k rest = some (n, repl)) :
    ∃ c rest2, rest = c :: rest2 ∧ kindHead k c = true := by
  cases k <;> simp only [phAfter] at h
  case pnc =>
    split at h
    · rename_i hcond
      have hne : rest.takeWhile Char.isDigit ≠ [] := by
        intro hnil
        rw [hnil] at hcond
        simp at hcond
      obtain ⟨c, l2, hl, hp⟩ := twHead _ _ hne
      exact ⟨c, l2, hl, hp⟩
    · exact absurd h (by simp)
  all_goals {
    split at h
    · rename_i hcond
      first
      | (rcases hcond with hcond | hcond | hcond | hcond
         <;> (cases rest with
              | nil => simp at hcond
              | cons c rest2 =>
                refine ⟨c, rest2, rfl, ?_⟩
                simp only [List.head?_cons, Option.some.injEq] at hcond
                simp [kindHead, hcond]))
      | (rcases hcond with hcond | hcond
         <;> (cases rest with
              | nil => simp at hcond
              | cons c rest2 =>
                refine ⟨c, rest2, rfl, ?_⟩
                simp only [List.head?_cons, Option.some.injEq] at hcond
                simp [kindHead, hcond]))
      | (cases rest with
         | nil => simp at hcond
         | cons c rest2 =>
           refine ⟨c, rest2, rfl, ?_⟩
           simp only [List.head?_cons, Option.some.injEq] at hcond
           simp [kindHead, hcond])
    · exact absurd h (by simp)
  }

theorem kindHead_cont (k : PKind) (c : Char) (h : kindHead k c = true) :
    contChar c = true := by
  cases k <;> simp only [kindHead] at h
  case pnc => simp [contChar, h]
  all_goals (simp at h
             first
             | (rcases h with ((h | h) | h) | h <;> subst h <;> decide)
             | (rcases h with h | h <;> subst h <;> decide)
             | (subst h; decide))

theorem kindHead_ne_pct (k : PKind) (c : Char) (h : kindHead k c = true) :
    c ≠ '%' := by
  cases k <;> simp only [kindHead] at h
  case pnc =>
    intro hc
    subst hc
    exact absurd h (by decide)
  all_goals (simp at h
             first
             | (rcases h with ((h | h) | h) | h <;> subst h <;> decide)
             | (rcases h with h | h <;> subst h <;> decide)
             | (subst h; decide))

theorem phMatch_nil (k : PKind) : phMatch k [] = none := rfl

theorem phMatch_head (k : PKind) (s : Str) (n : Nat) (repl : Str)
    (h : phMatch k s = some (n, repl)) :
    ∃ rest, s = '%' :: rest := by
  cases s with
  | nil => simp [phMatch] at h
  | cons c rest =>
    rw [phMatch] at h
    split at h
    · exact ⟨rest, by rename_i hc; rw [hc]⟩
    · simp at h

theorem phMatch_not_pct (k : PKind) (s : Str) (h : s.head? ≠ some '%') :
    phMatch k s = none := by
  cases s with
  | nil => rfl
  | cons c rest =>
    rw [phMatch]
    rw [if_neg]
    intro hc
    exact h (by rw [hc]; rfl)

theorem twLenEq (p : Char → Bool) (l : Str)
    (h : (l.takeWhile p).length = l.length) : l.takeWhile p = l := by
  induction l with
  | nil => rfl
  | cons c l ih =>
    by_cases hpc : p c
    · rw [List.takeWhile_cons, if_pos hpc] at h ⊢
      simp only [List.length_cons, Nat.add_right_cancel_iff] at h
      rw [ih h]
    · rw [List.takeWhile_cons, if_neg hpc] at h
      simp at h

theorem twLenLe (p : Char → Bool) (l : Str) : (l.takeWhile p).length ≤ l.length := by
  induction l with
  | nil => simp
  | cons c l ih =>
    by_cases hpc : p c
    · rw [List.takeWhile_cons, if_pos hpc]
      simpa using ih
    · rw [List.takeWhile_cons, if_neg hpc]
      simp

/-- The three facts used to move a `%Nc` match across an append boundary:
if the digit-run head condition of `phAfter .pnc` holds on `a`, it holds
identically on `a ++ y`. -/
theorem pncShift (a y : Str)
    (h2 : (a.drop (a.takeWhile Char.isDigit).length).head? = some 'c') :
    (a ++ y).takeWhile Char.isDigit = a.takeWhile Char.isDigit
    ∧ ((a ++ y).drop ((a ++ y).takeWhile Char.isDigit).length).head?
        = (a.drop (a.takeWhile Char.isDigit).length).head? := by
  have htw : a.takeWhile Char.isDigit ≠ a := by
    intro heq
    rw [heq] at h2
    simp at h2
  have hds : (a ++ y).takeWhile Char.isDigit = a.takeWhile Char.isDigit := by
    rw [twAppend, if_neg htw]
  have hle : (a.takeWhile Char.isDigit).length ≤ a.length := twLenLe _ _
  have hdrop : (a ++ y).drop (a.takeWhile Char.isDigit).length
      = a.drop (a.takeWhile Char.isDigit).length ++ y := by
    rw [List.drop_append_eq_append_drop]
    have h0 : (a.takeWhile Char.isDigit).length - a.length = 0 := by omega
    rw [h0, List.drop_zero]
  have hne2 : a.drop (a.takeWhile Char.isDigit).length ≠ [] := by
    intro he
    rw [he] at h2
    simp at h2
  refine ⟨hds, ?_⟩
  rw [hds, hdrop]
  cases hh : a.drop (a.takeWhile Char.isDigit).length with
  | nil => exact absurd hh hne2
  | cons u us => rfl

theorem phAfter_mono (k : PKind) (a y : Str) (n : Nat) (repl : Str)
    (h : phAfter k a = some (n, repl)) : phAfter k (a ++ y) = some (n, repl) := by
  cases k <;> simp only [phAfter] at h ⊢
  case pnc =>
    rcases ite_eq_iff.mp h with ⟨⟨h1, h2⟩, he⟩ | ⟨hc, he⟩
    · obtain ⟨hds, hhead⟩ := pncShift a y h2
      rw [if_pos ⟨by rw [hds]; exact h1, by rw [hhead]; exact h2⟩, hds]
      exact he
    · exact absurd he (by simp)
  all_goals (
    rcases ite_eq_iff.mp h with ⟨hcond, he⟩ | ⟨hc, he⟩
    · have hane : a ≠ [] := by intro hx; subst hx; simp at hcond
      have hhead : (a ++ y).head? = a.head? := by
        cases a with
        | nil => exact absurd rfl hane
        | cons c a2 => rfl
      rw [hhead, if_pos hcond]
      exact he
    · exact absurd he (by simp))

theorem phAfter_none_append (k : PKind) (a y : Str) (h : phAfter k a = none)
    (hy : headNotCont y) : phAfter k (a ++ y) = none := by
  cases k <;> simp only [phAfter] at h ⊢
  case pnc =>
    rw [if_neg]
    intro hcond
    obtain ⟨h1, h2⟩ := hcond
    by_cases htw : a.takeWhile Char.isDigit = a
    · have hdsy : (a ++ y).takeWhile Char.isDigit = a ++ y.takeWhile Char.isDigit := by
        rw [twAppend, if_pos htw]
      have hty : y.takeWhile Char.isDigit = [] := by
        cases y with
        | nil => rfl
        | cons cy y2 =>
          rw [List.takeWhile_cons, if_neg]
          intro hd
          have hcc := hy cy rfl
          rw [contChar] at hcc
          simp [hd] at hcc
      rw [hdsy, hty, List.append_nil] at h2
      rw [List.drop_left] at h2
      exact absurd (hy 'c' h2) (by decide)
    · have hds : (a ++ y).takeWhile Char.isDigit = a.takeWhile Char.isDigit := by
        rw [twAppend, if_neg htw]
      have hle : (a.takeWhile Char.isDigit).length ≤ a.length := twLenLe _ _
      have hlt : (a.takeWhile Char.isDigit).length < a.length := by
        rcases Nat.lt_or_ge (a.takeWhile Char.isDigit).length a.length with hl | hg
        · exact hl
        · exact absurd (twLenEq _ _ (by omega)) htw
      have hdrop : (a ++ y).drop (a.takeWhile Char.isDigit).length
          = a.drop (a.takeWhile Char.isDigit).length ++ y := by
        rw [List.drop_append_eq_append_drop]
        have h0 : (a.takeWhile Char.isDigit).length - a.length = 0 := by omega
        rw [h0, List.drop_zero]
      have hne2 : a.drop (a.takeWhile Char.isDigit).length ≠ [] := by
        intro he
        have := congrArg List.length he
        simp only [List.length_drop, List.length_nil] at this
        omega
      rw [hds] at h1 h2
      rw [hdrop] at h2
      have hh2 : (a.drop (a.takeWhile Char.isDigit).length).head? = some 'c' := by
        cases hh : a.drop (a.takeWhile Char.isDigit).length with
        | nil => exact absurd hh hne2
        | cons u us =>
          rw [hh] at h2
          simpa using h2
      rw [if_pos ⟨h1, hh2⟩] at h
      exact absurd h (by simp)
  all_goals (
    cases a with
    | nil =>
      simp only [List.nil_append]
      rw [if_neg]
      intro hc
      first
      | (rcases hc with hc | hc | hc | hc <;> exact absurd (hy _ hc) (by decide))
      | (rcases hc with hc | hc <;> exact absurd (hy _ hc) (by decide))
      | (exact absurd (hy _ hc) (by decide))
    | cons c a2 =>
      simp only [List.cons_append, List.head?_cons] at h ⊢
      exact h)

theorem phMatch_mono (k : PKind) (a y : Str) (n : Nat) (repl : Str)
    (h : phMatch k a = some (n, repl)) : phMatch k (a ++ y) = some (n, repl) := by
  obtain ⟨rest, hrest⟩ := phMatch_head k a n repl h
  subst hrest
  simp only [phMatch, List.cons_append, if_pos] at h ⊢
  exact phAfter_mono k rest y n repl h

theorem phMatch_none_append (k : PKind) (a y : Str) (h : phMatch k a = none)
    (ha : a ≠ []) (hy : headNotCont y) : phMatch k (a ++ y) = none := by
  cases a with
  | nil => exact absurd rfl ha
  | cons c a2 =>
    simp only [phMatch, List.cons_append] at h ⊢
    by_cases hc : c = '%'
    · rw [if_pos hc] at h ⊢
      exact phAfter_none_append k a2 y h hy
    · rw [if_neg hc] at h ⊢

theorem phMatch_bounds (k : PKind) (s : Str) (n : Nat) (repl : Str)
    (h : phMatch k s = some (n, repl)) : 2 ≤ n ∧ n ≤ s.length := by
  obtain ⟨rest, hrest⟩ := phMatch_head k s n repl h
  subst hrest
  simp only [phMatch, if_pos] at h
  cases k <;> simp only [phAfter] at h
  case pnc =>
    rcases ite_eq_iff.mp h with ⟨⟨h1, h2⟩, he⟩ | ⟨hc, he⟩
    · have hne2 : rest.drop (rest.takeWhile Char.isDigit).length ≠ [] := by
        intro hx
        rw [hx] at h2
        simp at h2
      have hle : (rest.takeWhile Char.isDigit).length ≤ rest.length := twLenLe _ _
      have hlen : (rest.takeWhile Char.isDigit).length < rest.length := by
        rcases Nat.lt_or_ge (rest.takeWhile Char.isDigit).length rest.length with hl | hg
        · exact hl
        · exfalso
          apply hne2
          have h0 : (rest.takeWhile Char.isDigit).length = rest.length := by omega
          rw [h0, List.drop_length]
      have hn : (rest.takeWhile Char.isDigit).length + 2 = n := by
        have := he
        injection this with hx
        injection hx
      simp only [List.length_cons]
      omega
    · exact absurd he (by simp)
  all_goals (
    rcases ite_eq_iff.mp h with ⟨hcond, he⟩ | ⟨hc, he⟩
    · have hane : rest ≠ [] := by intro hx; subst hx; simp at hcond
      have hn : n = 2 := by
        injection he with hx
        injection hx with hx1 hx2
        omega
      cases rest with
      | nil => exact absurd rfl hane
      | cons c2 rest2 =>
        simp only [List.length_cons]
        omega
    · exact absurd he (by simp))

theorem digit_ne_pct (c : Char) (h : c.isDigit = true) : c ≠ '%' := by
  intro he
  subst he
  exact absurd h (by decide)

theorem phMatch_repl_pctFree (k : PKind) (s : Str) (n : Nat) (repl : Str)
    (h : phMatch k s = some (n, repl)) : pctFree repl = true := by
  obtain ⟨rest, hrest⟩ := phMatch_head k s n repl h
  subst hrest
  simp only [phMatch, if_pos] at h
  cases k <;> simp only [phAfter] at h
  case pnc =>
    rcases ite_eq_iff.mp h with ⟨⟨h1, h2⟩, he⟩ | ⟨hc, he⟩
    · injection he with hx
      injection hx with hx1 hx2
      subst hx2
      rw [pctFree, List.all_eq_true]
      intro x hx
      simp only [List.mem_cons, List.mem_append, List.mem_singleton] at hx
      rcases hx with hx | hx | hx | hx
      · subst hx; decide
      · subst hx; decide
      · simpa using digit_ne_pct x (twMem Char.isDigit rest x hx)
      · rcases hx with hx | hx
        · subst hx; decide
        · simp at hx
    · exact absurd he (by simp)
  all_goals (
    rcases ite_eq_iff.mp h with ⟨hcond, he⟩ | ⟨hc, he⟩
    · injection he with hx
      injection hx with hx1 hx2
      subst hx2
      decide
    · exact absurd he (by simp))

theorem phMatch_interior (k : PKind) (s : Str) (n : Nat) (repl : Str)
    (h : phMatch k s = some (n, repl)) (i : Nat) (hil : 1 ≤ i) (hi : i < n) :
    (s.drop i).head? ≠ some '%' := by
  obtain ⟨rest, hrest⟩ := phMatch_head k s n repl h
  subst hrest
  have hsd : (('%' :: rest : Str).drop i).head? = (rest.drop (i - 1)).head? := by
    cases i with
    | zero => omega
    | succ j => simp
  rw [hsd]
  simp only [phMatch, if_pos] at h
  cases k <;> simp only [phAfter] at h
  case pnc =>
    rcases ite_eq_iff.mp h with ⟨⟨hc1, hc2⟩, he⟩ | ⟨hc, he⟩
    · have hn : (rest.takeWhile Char.isDigit).length + 2 = n := by
        injection he with hx
        injection hx
      rcases Nat.lt_or_ge (i - 1) (rest.takeWhile Char.isDigit).length with hlt | hge
      · have hsplit := twSplit Char.isDigit rest
        intro habs
        have hdec : rest.drop (i - 1)
            = (rest.takeWhile Char.isDigit).drop (i - 1)
              ++ rest.drop (rest.takeWhile Char.isDigit).length := by
          conv_lhs => rw [← hsplit]
          rw [List.drop_append_eq_append_drop]
          have h0 : i - 1 - (rest.takeWhile Char.isDigit).length = 0 := by omega
          rw [h0, List.drop_zero]
        rw [hdec] at habs
        cases hdd : (rest.takeWhile Char.isDigit).drop (i - 1) with
        | nil =>
          have := congrArg List.length hdd
          simp only [List.length_drop, List.length_nil] at this
          omega
        | cons u us =>
          rw [hdd] at habs
          simp only [List.cons_append, List.head?_cons, Option.some.injEq] at habs
          have hu : u ∈ rest.takeWhile Char.isDigit := by
            have hmem : u ∈ (rest.takeWhile Char.isDigit).drop (i - 1) := by
              rw [hdd]
              exact List.mem_cons_self u us
            exact List.drop_subset _ _ hmem
          exact absurd habs (digit_ne_pct u (twMem Char.isDigit rest u hu))
      · have h0 : i - 1 = (rest.takeWhile Char.isDigit).length := by omega
        rw [h0, hc2]
        decide
    · exact absurd he (by simp)
  all_goals (
    rcases ite_eq_iff.mp h with ⟨hcond, he⟩ | ⟨hc, he⟩
    · have hn : n = 2 := by
        injection he with hx
        injection hx with hx1 hx2
        omega
      have hi1 : i = 1 := by omega
      subst hi1
      simp only [Nat.sub_self, List.drop_zero]
      first
      | (rcases hcond with hc1 | hc1 | hc1 | hc1 <;> (rw [hc1]; decide))
      | (rcases hcond with hc1 | hc1 <;> (rw [hc1]; decide))
      | (rw [hcond]; decide)
    · exact absurd he (by simp))

theorem kindHead_inj (k k' : PKind) (c : Char) (h : kindHead k c = true)
    (h' : kindHead k' c = true) : k = k' := by
  cases k <;> cases k' <;>
    first
    | rfl
    | (exfalso
       simp only [kindHead] at h h'
       simp at h h'
       first
       | (subst h; exact absurd h' (by decide))
       | (subst h'; exact absurd h (by decide))
       | (rcases h with ((h | h) | h) | h <;> subst h <;> exact absurd h' (by decide))
       | (rcases h' with ((h' | h') | h') | h' <;> subst h' <;> exact absurd h (by decide))
       | (rcases h with h | h <;> subst h <;> exact absurd h' (by decide))
       | (rcases h' with h' | h' <;> subst h' <;> exact absurd h (by decide)))

theorem phMatch_kind_unique (k k' : PKind) (s : Str) (n n' : Nat) (r r' : Str)
    (h : phMatch k s = some (n, r)) (h' : phMatch k' s = some (n', r')) : k = k' := by
  obtain ⟨rest, hrest⟩ := phMatch_head k s n r h
  subst hrest
  simp only [phMatch, if_pos] at h h'
  obtain ⟨c, rest2, hr2, hk⟩ := phAfter_head k rest n r h
  obtain ⟨c', rest2', hr2', hk'⟩ := phAfter_head k' rest n' r' h'
  rw [hr2] at hr2'
  injection hr2' with hcc hrr
  refine kindHead_inj k k' c hk ?_
  rw [hcc]
  exact hk'

/-! ### Canonical recursion equations for the fuel-indexed scans -/

theorem reSubF_congr (k : PKind) :
    ∀ (f1 f2 : Nat) (s : Str), s.length ≤ f1 → s.length ≤ f2 →
      reSubF k f1 s = reSubF k f2 s := by
  intro f1
  induction f1 with
  | zero =>
    intro f2 s h1 h2
    have hs : s = [] := List.eq_nil_of_length_eq_zero (by omega)
    subst hs
    cases f2 <;> rfl
  | succ f1 ih =>
    intro f2 s h1 h2
    cases s with
    | nil => cases f2 <;> rfl
    | cons c rest =>
      cases f2 with
      | zero => simp at h2
      | succ f2 =>
        simp only [reSubF]
        cases hm : phMatch k (c :: rest) with
        | some nr =>
          obtain ⟨n, repl⟩ := nr
          simp only [List.length_cons] at h1 h2
          have hb : (rest.drop (n - 1)).length ≤ rest.length := by
            simp [List.length_drop]
          simp only
          rw [ih f2 (rest.drop (n - 1)) (by omega) (by omega)]
        | none =>
          simp only [List.length_cons] at h1 h2
          simp only
          rw [ih f2 rest (by omega) (by omega)]

theorem reSub_cons (k : PKind) (c : Char) (rest : Str) :
    reSub k (c :: rest)
      = match phMatch k (c :: rest) with
        | some (n, repl) => ('(' :: repl ++ [')']) ++ reSub k (rest.drop (n - 1))
        | none => c :: reSub k rest := by
  rw [reSub]
  simp only [List.length_cons, reSubF]
  cases hm : phMatch k (c :: rest) with
  | some nr =>
    obtain ⟨n, repl⟩ := nr
    simp only
    rw [reSub, reSubF_congr k rest.length (rest.drop (n - 1)).length (rest.drop (n - 1))
      (by simp [List.length_drop]) (by omega)]
  | none =>
    simp only
    rw [reSub]

theorem reFindF_congr (k : PKind) :
    ∀ (f1 f2 : Nat) (s : Str) (pos : Nat), s.length ≤ f1 → s.length ≤ f2 →
      reFindF k f1 s pos = reFindF k f2 s pos := by
  intro f1
  induction f1 with
  | zero =>
    intro f2 s pos h1 h2
    have hs : s = [] := List.eq_nil_of_length_eq_zero (by omega)
    subst hs
    cases f2 <;> rfl
  | succ f1 ih =>
    intro f2 s pos h1 h2
    cases s with
    | nil => cases f2 <;> rfl
    | cons c rest =>
      cases f2 with
      | zero => simp at h2
      | succ f2 =>
        simp only [reFindF]
        cases hm : phMatch k (c :: rest) with
        | some nr =>
          obtain ⟨n, repl⟩ := nr
          simp only [List.length_cons] at h1 h2
          simp only
          rw [ih f2 (rest.drop (n - 1)) (pos + n) (by simp [List.length_drop]; omega)
            (by simp [List.length_drop]; omega)]
        | none =>
          simp only [List.length_cons] at h1 h2
          simp only
          rw [ih f2 rest (pos + 1) (by omega) (by omega)]

theorem reFind_cons (k : PKind) (c : Char) (rest : Str) (pos : Nat) :
    reFind k (c :: rest) pos
      = match phMatch k (c :: rest) with
        | some (n, _) => pos :: reFind k (rest.drop (n - 1)) (pos + n)
        | none => reFind k rest (pos + 1) := by
  rw [reFind]
  simp only [List.length_cons, reFindF]
  cases hm : phMatch k (c :: rest) with
  | some nr =>
    obtain ⟨n, repl⟩ := nr
    simp only
    rw [reFind, reFindF_congr k rest.length (rest.drop (n - 1)).length (rest.drop (n - 1))
      (pos + n) (by simp [List.length_drop]) (by omega)]
  | none =>
    simp only
    rw [reFind]

theorem segSubLitF_congr (k : PKind) :
    ∀ (f1 f2 : Nat) (off : Nat) (s : Str), s.length ≤ f1 → s.length ≤ f2 →
      segSubLitF k f1 off s = segSubLitF k f2 off s := by
  intro f1
  induction f1 with
  | zero =>
    intro f2 off s h1 h2
    have hs : s = [] := List.eq_nil_of_length_eq_zero (by omega)
    subst hs
    cases f2 <;> rfl
  | succ f1 ih =>
    intro f2 off s h1 h2
    cases s with
    | nil => cases f2 <;> rfl
    | cons c rest =>
      cases f2 with
      | zero => simp at h2
      | succ f2 =>
        simp only [segSubLitF]
        cases hm : phMatch k (c :: rest) with
        | some nr =>
          obtain ⟨n, repl⟩ := nr
          simp only [List.length_cons] at h1 h2
          simp only
          rw [ih f2 (off + n) (rest.drop (n - 1)) (by simp [List.length_drop]; omega)
            (by simp [List.length_drop]; omega)]
        | none =>
          simp only [List.length_cons] at h1 h2
          simp only
          rw [ih f2 (off + 1) rest (by omega) (by omega)]

theorem segSubLit_cons (k : PKind) (off : Nat) (c : Char) (rest : Str) :
    segSubLit k off (c :: rest)
      = match phMatch k (c :: rest) with
        | some (n, repl) =>
          Seg.grp k off n repl :: segSubLit k (off + n) (rest.drop (n - 1))
        | none => consL c off (segSubLit k (off + 1) rest) := by
  rw [segSubLit]
  simp only [List.length_cons, segSubLitF]
  cases hm : phMatch k (c :: rest) with
  | some nr =>
    obtain ⟨n, repl⟩ := nr
    simp only
    rw [segSubLit, segSubLitF_congr k rest.length (rest.drop (n - 1)).length (off + n)
      (rest.drop (n - 1)) (by simp [List.length_drop]) (by omega)]
  | none =>
    simp only
    rw [segSubLit]

theorem flattenSegs_append (xs ys : List Seg) :
    flattenSegs (xs ++ ys) = flattenSegs xs ++ flattenSegs ys := by
  induction xs with
  | nil => rfl
  | cons x xs ih => cases x <;> simp [flattenSegs, ih]

theorem flattenSegs_consL (c : Char) (off : Nat) (ss : List Seg) :
    flattenSegs (consL c off ss) = c :: flattenSegs ss := by
  cases ss with
  | nil => rfl
  | cons s ss2 => cases s <;> rfl

theorem headNotCont_of_paren (y : Str) (hy : y = [] ∨ y.head? = some '(') :
    headNotCont y := by
  intro c hc
  rcases hy with hy | hy
  · subst hy
    simp at hc
  · rw [hy] at hc
    injection hc with hcc
    subst hcc
    decide

theorem reSub_pctFree_append (k : PKind) (x y : Str) (hx : pctFree x = true) :
    reSub k (x ++ y) = x ++ reSub k y := by
  induction x with
  | nil => rfl
  | cons c x2 ih =>
    rw [pctFree, List.all_eq_true] at hx
    have hc : c ≠ '%' := by simpa using hx c (List.mem_cons_self c x2)
    have hx2 : pctFree x2 = true := by
      rw [pctFree, List.all_eq_true]
      intro a ha
      exact hx a (List.mem_cons_of_mem c ha)
    have hm : phMatch k (c :: (x2 ++ y)) = none := by
      apply phMatch_not_pct
      simp [hc]
    rw [List.cons_append, reSub_cons, hm]
    simp only
    rw [ih hx2]
    rfl

theorem reSub_segSubLit (k : PKind) :
    ∀ (m : Nat) (cs : Str), cs.length ≤ m → ∀ (off : Nat) (y : Str),
      (y = [] ∨ y.head? = some '(') →
      reSub k (cs ++ y) = flattenSegs (segSubLit k off cs) ++ reSub k y := by
  intro m
  induction m with
  | zero =>
    intro cs h off y hy
    have hcs : cs = [] := List.eq_nil_of_length_eq_zero (by omega)
    subst hcs
    rfl
  | succ m ih =>
    intro cs h off y hy
    cases cs with
    | nil => rfl
    | cons c rest =>
      rw [segSubLit_cons]
      cases hm : phMatch k (c :: rest) with
      | some nr =>
        obtain ⟨n, repl⟩ := nr
        obtain ⟨hn2, hnle⟩ := phMatch_bounds k (c :: rest) n repl hm
        have hm2 : phMatch k (c :: (rest ++ y)) = some (n, repl) := by
          have hmono := phMatch_mono k (c :: rest) y n repl hm
          simpa using hmono
        rw [List.cons_append, reSub_cons, hm2]
        simp only
        have hdrop : (rest ++ y).drop (n - 1) = rest.drop (n - 1) ++ y := by
          rw [List.drop_append_eq_append_drop]
          have h0 : n - 1 - rest.length = 0 := by
            simp only [List.length_cons] at hnle
            omega
          rw [h0, List.drop_zero]
        rw [hdrop]
        rw [ih (rest.drop (n - 1))
          (by simp only [List.length_cons] at h; simp only [List.length_drop]; omega)
          (off + n) y hy]
        simp [flattenSegs, List.append_assoc]
      | none =>
        have hm2 : phMatch k (c :: (rest ++ y)) = none := by
          have hnone := phMatch_none_append k (c :: rest) y hm (by simp)
            (headNotCont_of_paren y hy)
          simpa using hnone
        rw [List.cons_append, reSub_cons, hm2]
        simp only
        rw [ih rest (by simp only [List.length_cons] at h; omega) (off + 1) y hy]
        rw [flattenSegs_consL]
        rfl

theorem reSub_flatten_segStep (k : PKind) :
    ∀ (segs : List Seg), noAdjLit segs = true → grpReplsOk segs = true →
      reSub k (flattenSegs segs) = flattenSegs (segStep k segs) := by
  intro segs
  induction segs with
  | nil =>
    intro _ _
    rfl
  | cons s ss ih =>
    intro hadj hok
    cases s with
    | grp k2 off n repl =>
      simp only [flattenSegs, segStep]
      have hok2 : pctFree repl = true ∧ grpReplsOk ss = true := by
        simpa [grpReplsOk, Bool.and_eq_true] using hok
      have hadj2 : noAdjLit ss = true := by
        simpa [noAdjLit] using hadj
      have hrender : pctFree ('(' :: repl ++ [')']) = true := by
        have hrepl := hok2.1
        rw [pctFree, List.all_eq_true] at hrepl ⊢
        intro a ha
        simp only [List.mem_cons, List.mem_append, List.mem_singleton] at ha
        rcases ha with (ha | ha) | ha | ha
        · subst ha; decide
        · exact hrepl a ha
        · subst ha; decide
        · simp at ha
      rw [reSub_pctFree_append k _ _ hrender, ih hadj2 hok2.2]
    | lit off cs =>
      simp only [flattenSegs, segStep]
      rw [flattenSegs_append]
      have hok2 : grpReplsOk ss = true := by simpa [grpReplsOk] using hok
      cases ss with
      | nil =>
        rw [reSub_segSubLit k cs.length cs le_rfl off (flattenSegs []) (Or.inl rfl)]
        rfl
      | cons s2 ss2 =>
        cases s2 with
        | lit o2 c2 =>
          exfalso
          simp [noAdjLit] at hadj
        | grp k2 o2 n2 r2 =>
          have hadj2 : noAdjLit (Seg.grp k2 o2 n2 r2 :: ss2) = true := by
            simpa [noAdjLit] using hadj
          rw [reSub_segSubLit k cs.length cs le_rfl off _
              (Or.inr (by simp [flattenSegs])),
            ih hadj2 hok2]

theorem grpReplsOk_append (xs ys : List Seg) :
    grpReplsOk (xs ++ ys) = (grpReplsOk xs && grpReplsOk ys) := by
  induction xs with
  | nil => simp [grpReplsOk]
  | cons x xs ih => cases x <;> simp [grpReplsOk, ih, Bool.and_assoc]

theorem grpReplsOk_consL (c : Char) (off : Nat) (ss : List Seg) :
    grpReplsOk (consL c off ss) = grpReplsOk ss := by
  cases ss with
  | nil => rfl
  | cons s ss2 => cases s <;> rfl

theorem grpReplsOk_segSubLit (k : PKind) :
    ∀ (m : Nat) (cs : Str), cs.length ≤ m → ∀ (off : Nat),
      grpReplsOk (segSubLit k off cs) = true := by
  intro m
  induction m with
  | zero =>
    intro cs h off
    have hcs : cs = [] := List.eq_nil_of_length_eq_zero (by omega)
    subst hcs
    rfl
  | succ m ih =>
    intro cs h off
    cases cs with
    | nil => rfl
    | cons c rest =>
      rw [segSubLit_cons]
      cases hm : phMatch k (c :: rest) with
      | some nr =>
        obtain ⟨n, repl⟩ := nr
        simp only [grpReplsOk]
        rw [phMatch_repl_pctFree k (c :: rest) n repl hm,
          ih (rest.drop (n - 1))
            (by simp only [List.length_cons] at h; simp only [List.length_drop]; omega)
            (off + n)]
        rfl
      | none =>
        rw [grpReplsOk_consL,
          ih rest (by simp only [List.length_cons] at h; omega) (off + 1)]

theorem grpReplsOk_segStep (k : PKind) (segs : List Seg)
    (h : grpReplsOk segs = true) : grpReplsOk (segStep k segs) = true := by
  induction segs with
  | nil => rfl
  | cons s ss ih =>
    cases s with
    | lit off cs =>
      simp only [segStep]
      rw [grpReplsOk_append, grpReplsOk_segSubLit k cs.length cs le_rfl off,
        ih (by simpa [grpReplsOk] using h)]
      rfl
    | grp k2 off n repl =>
      simp only [segStep, grpReplsOk]
      have h2 := by simpa [grpReplsOk, Bool.and_eq_true] using h
      rw [h2.1, ih h2.2]
      rfl

theorem noAdjLit_cons_grp (k2 : PKind) (o n : Nat) (r : Str) (ss : List Seg) :
    noAdjLit (Seg.grp k2 o n r :: ss) = noAdjLit ss := by
  cases ss with
  | nil => rfl
  | cons s t => cases s <;> rfl

theorem noAdjLit_lit_cong (o1 o2 : Nat) (c1 c2 : Str) (tail : List Seg) :
    noAdjLit (Seg.lit o1 c1 :: tail) = noAdjLit (Seg.lit o2 c2 :: tail) := by
  cases tail with
  | nil => rfl
  | cons s t2 => cases s <;> rfl

theorem noAdjLit_tail (s : Seg) (ss : List Seg) (h : noAdjLit (s :: ss) = true) :
    noAdjLit ss = true := by
  cases s with
  | grp k2 o n r => rwa [noAdjLit_cons_grp] at h
  | lit o c =>
    cases ss with
    | nil => rfl
    | cons s2 ss2 =>
      cases s2 with
      | lit o2 c2 => simp [noAdjLit] at h
      | grp k2 o2 n2 r2 => exact h

theorem noAdjLit_consL_append (c : Char) (off : Nat) (w zs : List Seg)
    (hw : noAdjLit (w ++ zs) = true) (hzs : noAdjLit zs = true)
    (hh : zs = [] ∨ ∃ k2 o n r zs2, zs = Seg.grp k2 o n r :: zs2) :
    noAdjLit (consL c off w ++ zs) = true := by
  cases w with
  | nil =>
    rcases hh with hh | ⟨k2, o, n, r, zs2, hh⟩
    · subst hh
      rfl
    · subst hh
      exact hzs
  | cons s w2 =>
    cases s with
    | lit o2 cs2 =>
      simp only [consL, List.cons_append] at hw ⊢
      rw [noAdjLit_lit_cong off o2 (c :: cs2) cs2]
      exact hw
    | grp k2 o2 n2 r2 =>
      simp only [consL, List.cons_append] at hw ⊢
      exact hw

theorem noAdjLit_segSubLit_append (k : PKind) :
    ∀ (m : Nat) (cs : Str), cs.length ≤ m → ∀ (off : Nat) (zs : List Seg),
      noAdjLit zs = true →
      (zs = [] ∨ ∃ k2 o n r zs2, zs = Seg.grp k2 o n r :: zs2) →
      noAdjLit (segSubLit k off cs ++ zs) = true := by
  intro m
  induction m with
  | zero =>
    intro cs h off zs hzs hh
    have hcs : cs = [] := List.eq_nil_of_length_eq_zero (by omega)
    subst hcs
    simpa using hzs
  | succ m ih =>
    intro cs h off zs hzs hh
    cases cs with
    | nil => simpa using hzs
    | cons c rest =>
      rw [segSubLit_cons]
      cases hm : phMatch k (c :: rest) with
      | some nr =>
        obtain ⟨n, repl⟩ := nr
        simp only [List.cons_append]
        rw [noAdjLit_cons_grp]
        exact ih (rest.drop (n - 1))
          (by simp only [List.length_cons] at h; simp only [List.length_drop]; omega)
          (off + n) zs hzs hh
      | none =>
        exact noAdjLit_consL_append c off _ zs
          (ih rest (by simp only [List.length_cons] at h; omega) (off + 1) zs hzs hh)
          hzs hh

theorem noAdjLit_segStep (k : PKind) (segs : List Seg)
    (h : noAdjLit segs = true) : noAdjLit (segStep k segs) = true := by
  induction segs with
  | nil => rfl
  | cons s ss ih =>
    have hss := noAdjLit_tail s ss h
    cases s with
    | grp k2 off n repl =>
      simp only [segStep]
      rw [noAdjLit_cons_grp]
      exact ih hss
    | lit off cs =>
      simp only [segStep]
      cases ss with
      | nil =>
        exact noAdjLit_segSubLit_append k cs.length cs le_rfl off _ rfl (Or.inl rfl)
      | cons s2 ss2 =>
        cases s2 with
        | lit o2 c2 => simp [noAdjLit] at h
        | grp k2 o2 n2 r2 =>
          have hstep := ih hss
          simp only [segStep] at hstep ⊢
          exact noAdjLit_segSubLit_append k cs.length cs le_rfl off _ hstep
            (Or.inr ⟨k2, o2, n2, r2, segStep k ss2, rfl⟩)

theorem flatten_segCompile (t : Str) : flattenSegs (segCompile t) = compileRegex t := by
  suffices h : ∀ (ks : List PKind) (segs : List Seg), noAdjLit segs = true →
      grpReplsOk segs = true →
      flattenSegs (ks.foldl (fun s k2 => segStep k2 s) segs)
        = ks.foldl (fun r k2 => reSub k2 r) (flattenSegs segs) by
    have h2 := h placeholdersL [Seg.lit 0 t] rfl rfl
    simpa [segCompile, compileRegex, flattenSegs] using h2
  intro ks
  induction ks with
  | nil =>
    intro segs _ _
    rfl
  | cons k2 ks ih =>
    intro segs hadj hok
    simp only [List.foldl_cons]
    rw [ih (segStep k2 segs) (noAdjLit_segStep k2 segs hadj) (grpReplsOk_segStep k2 segs hok),
      reSub_flatten_segStep k2 segs hadj hok]

theorem reFind_append (k : PKind) :
    ∀ (m : Nat) (cs : Str), cs.length ≤ m → ∀ (pos : Nat) (y : Str), headNotCont y →
      reFind k (cs ++ y) pos = reFind k cs pos ++ reFind k y (pos + cs.length) := by
  intro m
  induction m with
  | zero =>
    intro cs h pos y hy
    have hcs : cs = [] := List.eq_nil_of_length_eq_zero (by omega)
    subst hcs
    simp [show ∀ p, reFind k ([] : Str) p = [] from fun _ => rfl]
  | succ m ih =>
    intro cs h pos y hy
    cases cs with
    | nil => simp [show ∀ p, reFind k ([] : Str) p = [] from fun _ => rfl]
    | cons c rest =>
      cases hm : phMatch k (c :: rest) with
      | some nr =>
        obtain ⟨n, repl⟩ := nr
        obtain ⟨hn2, hnle⟩ := phMatch_bounds k (c :: rest) n repl hm
        simp only [List.length_cons] at hnle
        have hm2 : phMatch k (c :: (rest ++ y)) = some (n, repl) := by
          have hmono := phMatch_mono k (c :: rest) y n repl hm
          simpa using hmono
        rw [List.cons_append, reFind_cons, hm2]
        simp only
        have hdrop : (rest ++ y).drop (n - 1) = rest.drop (n - 1) ++ y := by
          rw [List.drop_append_eq_append_drop]
          have h0 : n - 1 - rest.length = 0 := by omega
          rw [h0, List.drop_zero]
        rw [hdrop]
        rw [ih (rest.drop (n - 1))
          (by simp only [List.length_cons] at h; simp only [List.length_drop]; omega)
          (pos + n) y hy]
        have harg : pos + n + (rest.drop (n - 1)).length = pos + (c :: rest).length := by
          simp only [List.length_drop, List.length_cons]
          omega
        rw [harg, reFind_cons, hm]
        simp only [List.cons_append]
      | none =>
        have hm2 : phMatch k (c :: (rest ++ y)) = none := by
          have hnone := phMatch_none_append k (c :: rest) y hm (by simp) hy
          simpa using hnone
        rw [List.cons_append, reFind_cons, hm2]
        simp only
        rw [ih rest (by simp only [List.length_cons] at h; omega) (pos + 1) y hy]
        rw [reFind_cons, hm]
        simp only [List.length_cons]
        have harg : pos + 1 + rest.length = pos + (rest.length + 1) := by omega
        rw [harg]

theorem reFind_skip (k : PKind) :
    ∀ (m : Nat) (u : Str) (pos : Nat), (∀ i, i < m → phMatch k (u.drop i) = none) →
      m ≤ u.length → reFind k u pos = reFind k (u.drop m) (pos + m) := by
  intro m
  induction m with
  | zero =>
    intro u pos _ _
    rw [List.drop_zero, Nat.add_zero]
  | succ m ih =>
    intro u pos hnone hle
    cases u with
    | nil => simp at hle
    | cons c rest =>
      have h0 : phMatch k (c :: rest) = none := by
        have := hnone 0 (by omega)
        simpa using this
      rw [reFind_cons, h0]
      simp only
      have hrec := ih rest (pos + 1) (fun i hi => by
        have := hnone (i + 1) (by omega)
        simpa using this) (by simp only [List.length_cons] at hle; omega)
      rw [hrec]
      have harg : pos + 1 + m = pos + (m + 1) := by omega
      rw [harg]
      rfl

theorem reFind_tiling (kk : PKind) (t : Str) :
    ∀ (segs : List Seg) (off : Nat), Tiling t off segs → noAdjLit segs = true →
      (∀ k2 o n r, Seg.grp k2 o n r ∈ segs → k2 ≠ kk) →
      reFind kk (t.drop off) off = segsFindK kk segs := by
  intro segs
  induction segs with
  | nil =>
    intro off ht _ _
    cases ht with
    | nil _ h =>
      rw [h, List.drop_length]
      rfl
  | cons s ss ih =>
    intro off ht hadj hk
    cases ht with
    | lit _ cs _ hcs hlen ht2 =>
      have hy : headNotCont (t.drop (off + cs.length)) := by
        cases ht2 with
        | nil _ h2 =>
          rw [h2, List.drop_length]
          intro c hc
          simp at hc
        | lit off2 cs2 ss2 hcs2 hlen2 ht3 =>
          exfalso
          simp [noAdjLit] at hadj
        | grp k2 off2 n2 repl2 ss2 hm2 ht3 =>
          intro c hc
          obtain ⟨rest2, hrest2⟩ := phMatch_head k2 _ _ _ hm2
          rw [hrest2] at hc
          injection hc with hcc
          subst hcc
          decide
      rw [hcs, reFind_append kk cs.length cs le_rfl off _ hy]
      have hrec := ih (off + cs.length) ht2 (noAdjLit_tail _ _ hadj)
        (fun k2 o n r hmem => hk k2 o n r (List.mem_cons_of_mem _ hmem))
      rw [hrec]
      rfl
    | grp k2 _ n repl _ hm ht2 =>
      have hkne : k2 ≠ kk := hk k2 off n repl (List.mem_cons_self _ _)
      obtain ⟨hn2, hnle⟩ := phMatch_bounds k2 _ n repl hm
      have hnone : ∀ i, i < n → phMatch kk ((t.drop off).drop i) = none := by
        intro i hi
        rcases Nat.eq_zero_or_pos i with hi0 | hipos
        · subst hi0
          rw [List.drop_zero]
          cases hmm : phMatch kk (t.drop off) with
          | none => rfl
          | some nr2 =>
            exact absurd (phMatch_kind_unique k2 kk _ n nr2.1 repl nr2.2 hm
              (by rw [hmm])) hkne
        · apply phMatch_not_pct
          exact phMatch_interior k2 _ n repl hm i hipos hi
      have hdd : (t.drop off).drop n = t.drop (off + n) := by
        rw [List.drop_drop]
      rw [reFind_skip kk n (t.drop off) off hnone hnle, hdd]
      have hrec := ih (off + n) ht2 (noAdjLit_tail _ _ hadj)
        (fun k3 o3 n3 r3 hmem => hk k3 o3 n3 r3 (List.mem_cons_of_mem _ hmem))
      rw [hrec]
      rfl

theorem segPlaceholders_append (xs ys : List Seg) :
    segPlaceholders (xs ++ ys) = segPlaceholders xs ++ segPlaceholders ys := by
  induction xs with
  | nil => rfl
  | cons x xs ih => cases x <;> simp [segPlaceholders, ih]

theorem segPlaceholders_consL (c : Char) (off : Nat) (ss : List Seg) :
    segPlaceholders (consL c off ss) = segPlaceholders ss := by
  cases ss with
  | nil => rfl
  | cons s ss2 => cases s <;> rfl

theorem segPlaceholders_segSubLit (k : PKind) :
    ∀ (m : Nat) (cs : Str), cs.length ≤ m → ∀ (off : Nat),
      segPlaceholders (segSubLit k off cs)
        = (reFind k cs off).map (fun p => (k, p)) := by
  intro m
  induction m with
  | zero =>
    intro cs h off
    have hcs : cs = [] := List.eq_nil_of_length_eq_zero (by omega)
    subst hcs
    rfl
  | succ m ih =>
    intro cs h off
    cases cs with
    | nil => rfl
    | cons c rest =>
      rw [segSubLit_cons, reFind_cons]
      cases hm : phMatch k (c :: rest) with
      | some nr =>
        obtain ⟨n, repl⟩ := nr
        simp only [segPlaceholders, List.map_cons]
        rw [ih (rest.drop (n - 1))
          (by simp only [List.length_cons] at h; simp only [List.length_drop]; omega)
          (off + n)]
      | none =>
        rw [segPlaceholders_consL,
          ih rest (by simp only [List.length_cons] at h; omega) (off + 1)]

theorem segPlaceholders_segStep_perm (k : PKind) :
    ∀ (segs : List Seg),
      List.Perm (segPlaceholders (segStep k segs))
        (segPlaceholders segs ++ (segsFindK k segs).map (fun p => (k, p))) := by
  intro segs
  induction segs with
  | nil => rfl
  | cons s ss ih =>
    cases s with
    | lit off cs =>
      simp only [segStep, segsFindK, segPlaceholders]
      rw [segPlaceholders_append, segPlaceholders_segSubLit k cs.length cs le_rfl off,
        List.map_append]
      refine List.Perm.trans (List.Perm.append_left _ ih) ?_
      rw [← List.append_assoc, ← List.append_assoc]
      exact List.Perm.append_right _ List.perm_append_comm
    | grp k2 off n repl =>
      simp only [segStep, segsFindK, segPlaceholders, List.cons_append]
      exact List.Perm.cons _ ih

theorem grp_mem_consL (c : Char) (off : Nat) (ss : List Seg) (k2 : PKind)
    (o n : Nat) (r : Str) (h : Seg.grp k2 o n r ∈ consL c off ss) :
    Seg.grp k2 o n r ∈ ss := by
  cases ss with
  | nil =>
    simp [consL] at h
  | cons s ss2 =>
    cases s with
    | lit o2 c2 =>
      simp only [consL, List.mem_cons] at h ⊢
      rcases h with h | h
      · exact absurd h (by simp)
      · exact Or.inr h
    | grp k3 o3 n3 r3 =>
      simp only [consL, List.mem_cons] at h ⊢
      rcases h with h | h
      · exact absurd h (by simp)
      · exact h

theorem grp_mem_segSubLit (k : PKind) :
    ∀ (m : Nat) (cs : Str), cs.length ≤ m → ∀ (off : Nat) (k2 : PKind) (o n : Nat) (r : Str),
      Seg.grp k2 o n r ∈ segSubLit k off cs → k2 = k := by
  intro m
  induction m with
  | zero =>
    intro cs h off k2 o n r hmem
    have hcs : cs = [] := List.eq_nil_of_length_eq_zero (by omega)
    subst hcs
    simp [segSubLit, segSubLitF] at hmem
  | succ m ih =>
    intro cs h off k2 o n r hmem
    cases cs with
    | nil => simp [segSubLit, segSubLitF] at hmem
    | cons c rest =>
      rw [segSubLit_cons] at hmem
      cases hm : phMatch k (c :: rest) with
      | some nr =>
        obtain ⟨n2, repl2⟩ := nr
        rw [hm] at hmem
        simp only [List.mem_cons] at hmem
        rcases hmem with hmem | hmem
        · injection hmem with h1 h2 h3 h4
        · exact ih (rest.drop (n2 - 1))
            (by simp only [List.length_cons] at h; simp only [List.length_drop]; omega)
            (off + n2) k2 o n r hmem
      | none =>
        rw [hm] at hmem
        exact ih rest (by simp only [List.length_cons] at h; omega) (off + 1) k2 o n r
          (grp_mem_consL c off _ k2 o n r hmem)

theorem grp_mem_segStep (k : PKind) (segs : List Seg) (k2 : PKind) (o n : Nat) (r : Str)
    (h : Seg.grp k2 o n r ∈ segStep k segs) :
    k2 = k ∨ Seg.grp k2 o n r ∈ segs := by
  induction segs with
  | nil => simp [segStep] at h
  | cons s ss ih =>
    cases s with
    | lit off cs =>
      simp only [segStep, List.mem_append] at h
      rcases h with h | h
      · exact Or.inl (grp_mem_segSubLit k cs.length cs le_rfl off k2 o n r h)
      · rcases ih h with h2 | h2
        · exact Or.inl h2
        · exact Or.inr (List.mem_cons_of_mem _ h2)
    | grp k3 o3 n3 r3 =>
      simp only [segStep, List.mem_cons] at h
      rcases h with h | h
      · exact Or.inr (List.mem_cons.mpr (Or.inl h))
      · rcases ih h with h2 | h2
        · exact Or.inl h2
        · exact Or.inr (List.mem_cons_of_mem _ h2)

theorem tiling_consL (t : Str) (c : Char) (off : Nat) (w ss : List Seg)
    (hhead : t.drop off = c :: t.drop (off + 1))
    (hsub : Tiling t (off + 1) (w ++ ss)) :
    Tiling t off (consL c off w ++ ss) := by
  have hlt : off < t.length := by
    by_contra hge
    have hdn : t.drop off = [] := List.drop_eq_nil_of_le (by omega)
    rw [hdn] at hhead
    exact absurd hhead (by simp)
  cases w with
  | nil =>
    simp only [consL, List.nil_append] at hsub ⊢
    refine Tiling.lit off [c] ss ?_ ?_ ?_
    · simpa using hhead
    · simpa using hlt
    · simpa using hsub
  | cons s w2 =>
    cases s with
    | lit o2 cs2 =>
      simp only [consL, List.cons_append] at hsub ⊢
      cases hsub with
      | lit _ _ _ hcs2 hlen2 ht2 =>
        refine Tiling.lit off (c :: cs2) (w2 ++ ss) ?_ ?_ ?_
        · have e : off + (c :: cs2).length = off + 1 + cs2.length := by
            simp only [List.length_cons]
            omega
          rw [e, hhead, hcs2]
          rfl
        · simp only [List.length_cons]
          omega
        · have e : off + (c :: cs2).length = off + 1 + cs2.length := by
            simp only [List.length_cons]
            omega
          rw [e]
          exact ht2
    | grp k3 o3 n3 r3 =>
      simp only [consL, List.cons_append] at hsub ⊢
      refine Tiling.lit off [c] _ ?_ ?_ ?_
      · simpa using hhead
      · simpa using hlt
      · simpa using hsub

theorem tiling_segSubLit (k : PKind) (t : Str) :
    ∀ (m : Nat) (cs : Str), cs.length ≤ m → ∀ (off : Nat) (ss : List Seg),
      t.drop off = cs ++ t.drop (off + cs.length) →
      off + cs.length ≤ t.length →
      Tiling t (off + cs.length) ss →
      Tiling t off (segSubLit k off cs ++ ss) := by
  intro m
  induction m with
  | zero =>
    intro cs h off ss hcs hlen ht
    have h0 : cs = [] := List.eq_nil_of_length_eq_zero (by omega)
    subst h0
    simpa using ht
  | succ m ih =>
    intro cs h off ss hcs hlen ht
    cases cs with
    | nil => simpa using ht
    | cons c rest =>
      simp only [List.length_cons] at h hlen ht hcs
      rw [segSubLit_cons]
      cases hm : phMatch k (c :: rest) with
      | some nr =>
        obtain ⟨n, repl⟩ := nr
        obtain ⟨hn2, hnle⟩ := phMatch_bounds k (c :: rest) n repl hm
        simp only [List.length_cons] at hnle
        have hmt : phMatch k (t.drop off) = some (n, repl) := by
          rw [hcs]
          exact phMatch_mono k (c :: rest) _ n repl hm
        simp only [List.cons_append]
        refine Tiling.grp k off n repl _ hmt ?_
        have hdropt : t.drop (off + n) = (t.drop off).drop n := by
          rw [List.drop_drop]
        have hsplit : t.drop (off + n)
            = rest.drop (n - 1) ++ t.drop (off + (rest.length + 1)) := by
          rw [hdropt, hcs, List.drop_append_eq_append_drop]
          have h0 : n - (c :: rest).length = 0 := by
            simp only [List.length_cons]
            omega
          rw [h0, List.drop_zero]
          have hn0 : n = (n - 1) + 1 := by omega
          rw [hn0]
          rfl
        have e : off + (rest.length + 1) = (off + n) + (rest.drop (n - 1)).length := by
          simp only [List.length_drop]
          omega
        refine ih (rest.drop (n - 1))
          (by simp only [List.length_drop]; omega) (off + n) ss ?_ ?_ ?_
        · rw [hsplit, e]
        · rw [← e]
          exact hlen
        · rw [← e]
          exact ht
      | none =>
        have hdrop1 : t.drop (off + 1) = rest ++ t.drop (off + (rest.length + 1)) := by
          have h1 : t.drop (off + 1) = (t.drop off).drop 1 := by
            rw [List.drop_drop]
          rw [h1, hcs]
          rfl
        apply tiling_consL t c off _ ss
        · rw [hcs, hdrop1]
          rfl
        · have e : off + 1 + rest.length = off + (rest.length + 1) := by omega
          refine ih rest (by omega) (off + 1) ss (by rw [e]; exact hdrop1) ?_ ?_
          · omega
          · rw [e]
            exact ht

theorem tiling_segStep (k : PKind) (t : Str) :
    ∀ (segs : List Seg) (off : Nat), Tiling t off segs → Tiling t off (segStep k segs) := by
  intro segs
  induction segs with
  | nil =>
    intro off ht
    exact ht
  | cons s ss ih =>
    intro off ht
    cases ht with
    | lit _ cs _ hcs hlen ht2 =>
      exact tiling_segSubLit k t cs.length cs le_rfl off (segStep k ss) hcs hlen (ih _ ht2)
    | grp k2 _ n r _ hm ht2 =>
      exact Tiling.grp k2 off n r _ hm (ih _ ht2)

theorem tiling_segCompile (t : Str) : Tiling t 0 (segCompile t) := by
  have hinit : Tiling t 0 [Seg.lit 0 t] := by
    refine Tiling.lit 0 t [] ?_ ?_ (Tiling.nil _ ?_)
    · rw [List.drop_zero, Nat.zero_add, List.drop_length, List.append_nil]
    · omega
    · omega
  rw [segCompile]
  have haux : ∀ (ks : List PKind) (segs : List Seg), Tiling t 0 segs →
      Tiling t 0 (ks.foldl (fun s k2 => segStep k2 s) segs) := by
    intro ks
    induction ks with
    | nil =>
      intro segs ht
      exact ht
    | cons k2 ks ih =>
      intro segs ht
      exact ih (segStep k2 segs) (tiling_segStep k2 t segs 0 ht)
  exact haux placeholdersL [Seg.lit 0 t] hinit

theorem noAdjLit_segCompile (t : Str) : noAdjLit (segCompile t) = true := by
  rw [segCompile]
  have haux : ∀ (ks : List PKind) (segs : List Seg), noAdjLit segs = true →
      noAdjLit (ks.foldl (fun s k2 => segStep k2 s) segs) = true := by
    intro ks
    induction ks with
    | nil =>
      intro segs h
      exact h
    | cons k2 ks ih =>
      intro segs h
      exact ih (segStep k2 segs) (noAdjLit_segStep k2 segs h)
  exact haux placeholdersL [Seg.lit 0 t] rfl

theorem tiling_offsets (t : Str) :
    ∀ (segs : List Seg) (off : Nat), Tiling t off segs →
      (∀ p ∈ segPlaceholders segs, off ≤ p.2)
      ∧ List.Pairwise (fun a b : PKind × Nat => a.2 < b.2) (segPlaceholders segs) := by
  intro segs
  induction segs with
  | nil =>
    intro off ht
    constructor
    · intro p hp
      simp [segPlaceholders] at hp
    · simp [segPlaceholders]
  | cons s ss ih =>
    intro off ht
    cases ht with
    | lit _ cs _ hcs hlen ht2 =>
      obtain ⟨hlb, hsort⟩ := ih _ ht2
      refine ⟨fun p hp => ?_, hsort⟩
      have := hlb p hp
      omega
    | grp k2 _ n r _ hm ht2 =>
      obtain ⟨hlb, hsort⟩ := ih _ ht2
      obtain ⟨hn2, hnle⟩ := phMatch_bounds k2 _ n r hm
      constructor
      · intro p hp
        simp only [segPlaceholders, List.mem_cons] at hp
        rcases hp with hp | hp
        · subst hp
          simp
        · have := hlb p hp
          omega
      · simp only [segPlaceholders]
        refine List.Pairwise.cons ?_ hsort
        intro p hp
        have := hlb p hp
        simp only
        omega

theorem foldl_append_acc (f : PKind → List (PKind × Nat)) :
    ∀ (ks : List PKind) (acc : List (PKind × Nat)),
      ks.foldl (fun a k => a ++ f k) acc = acc ++ ks.foldl (fun a k => a ++ f k) [] := by
  intro ks
  induction ks with
  | nil =>
    intro acc
    simp
  | cons k ks ih =>
    intro acc
    simp only [List.foldl_cons]
    rw [ih (acc ++ f k), ih ([] ++ f k)]
    simp

theorem matched_perm_aux (t : Str) :
    ∀ (ks : List PKind) (segs : List Seg),
      Tiling t 0 segs → noAdjLit segs = true →
      (∀ k ∈ ks, ∀ k2 o n r, Seg.grp k2 o n r ∈ segs → k2 ≠ k) →
      ks.Nodup →
      List.Perm (segPlaceholders (ks.foldl (fun s k2 => segStep k2 s) segs))
        (segPlaceholders segs
          ++ ks.foldl (fun acc k => acc ++ (reFind k t 0).map (fun p => (k, p))) []) := by
  intro ks
  induction ks with
  | nil =>
    intro segs _ _ _ _
    simp
  | cons k ks ih =>
    intro segs ht hadj hfresh hnd
    simp only [List.foldl_cons]
    have hstep : List.Perm (segPlaceholders (segStep k segs))
        (segPlaceholders segs ++ (reFind k t 0).map (fun p => (k, p))) := by
      have hfind : reFind k (t.drop 0) 0 = segsFindK k segs :=
        reFind_tiling k t segs 0 ht hadj (hfresh k (List.mem_cons_self _ _))
      rw [List.drop_zero] at hfind
      rw [hfind]
      exact segPlaceholders_segStep_perm k segs
    have hrec := ih (segStep k segs) (tiling_segStep k t segs 0 ht)
      (noAdjLit_segStep k segs hadj)
      (fun k3 hk3 k2 o n r hmem => by
        rcases grp_mem_segStep k segs k2 o n r hmem with hh | hh
        · subst hh
          intro he
          subst he
          exact (List.nodup_cons.mp hnd).1 hk3
        · exact hfresh k3 (List.mem_cons_of_mem _ hk3) k2 o n r hh)
      (List.nodup_cons.mp hnd).2
    refine List.Perm.trans hrec ?_
    rw [foldl_append_acc (fun k2 => (reFind k2 t 0).map (fun p => (k2, p))) ks
      ([] ++ (reFind k t 0).map (fun p => (k, p)))]
    simp only [List.nil_append]
    refine List.Perm.trans (List.Perm.append_right _ hstep) ?_
    rw [List.append_assoc]

theorem matched_perm_segPlaceholders (t : Str) :
    List.Perm (matchedPlaceholders t) (segPlaceholders (segCompile t)) := by
  have hinit : Tiling t 0 [Seg.lit 0 t] := by
    refine Tiling.lit 0 t [] ?_ ?_ (Tiling.nil _ ?_)
    · rw [List.drop_zero, Nat.zero_add, List.drop_length, List.append_nil]
    · omega
    · omega
  have h := matched_perm_aux t placeholdersL [Seg.lit 0 t] hinit rfl
    (fun k _ k2 o n r hmem => by simp at hmem)
    (by rw [placeholdersL]; decide)
  rw [matchedPlaceholders, segCompile]
  simp only [segPlaceholders, List.nil_append] at h
  exact (h.symm)

theorem insertByOff_perm (x : PKind × Nat) (l : List (PKind × Nat)) :
    List.Perm (insertByOff x l) (x :: l) := by
  induction l with
  | nil => rfl
  | cons y ys ih =>
    rw [insertByOff]
    split
    · rfl
    · exact List.Perm.trans (List.Perm.cons y ih) (List.Perm.swap x y ys)

theorem sortByOffset_perm (l : List (PKind × Nat)) : List.Perm (sortByOffset l) l := by
  induction l with
  | nil => rfl
  | cons x xs ih =>
    rw [sortByOffset]
    exact List.Perm.trans (insertByOff_perm x (sortByOffset xs)) (List.Perm.cons x ih)

theorem insertByOff_pairwise (x : PKind × Nat) (l : List (PKind × Nat))
    (h : List.Pairwise (fun a b : PKind × Nat => a.2 ≤ b.2) l) :
    List.Pairwise (fun a b : PKind × Nat => a.2 ≤ b.2) (insertByOff x l) := by
  induction l with
  | nil => simp [insertByOff]
  | cons y ys ih =>
    rw [insertByOff]
    rcases List.pairwise_cons.mp h with ⟨hy, hys⟩
    split
    · rename_i hlt
      refine List.Pairwise.cons ?_ h
      intro z hz
      rcases List.mem_cons.mp hz with hz | hz
      · subst hz
        omega
      · have := hy z hz
        omega
    · rename_i hnlt
      refine List.Pairwise.cons ?_ (ih hys)
      intro z hz
      have hz2 := (insertByOff_perm x ys).mem_iff.mp hz
      rcases List.mem_cons.mp hz2 with hz2 | hz2
      · subst hz2
        omega
      · exact hy z hz2

theorem sortByOffset_pairwise (l : List (PKind × Nat)) :
    List.Pairwise (fun a b : PKind × Nat => a.2 ≤ b.2) (sortByOffset l) := by
  induction l with
  | nil => simp [sortByOffset]
  | cons x xs ih =>
    rw [sortByOffset]
    exact insertByOff_pairwise x (sortByOffset xs) ih

theorem sorted_perm_unique (p q : List (PKind × Nat))
    (hperm : List.Perm p q)
    (hp : List.Pairwise (fun a b : PKind × Nat => a.2 ≤ b.2) p)
    (hq : List.Pairwise (fun a b : PKind × Nat => a.2 < b.2) q) : p = q := by
  haveI : IsAntisymm (PKind × Nat) (fun a b : PKind × Nat => a.2 < b.2) :=
    ⟨fun a b h1 h2 => absurd h1 (by omega)⟩
  have hqkeys : (q.map Prod.snd).Nodup := by
    rw [List.Nodup, List.pairwise_map]
    exact hq.imp (fun h => by omega)
  have hpkeys : (p.map Prod.snd).Nodup := ((hperm.map Prod.snd).nodup_iff).mpr hqkeys
  have hpne : List.Pairwise (fun a b : PKind × Nat => a.2 ≠ b.2) p := by
    rw [List.Nodup, List.pairwise_map] at hpkeys
    exact hpkeys
  have hplt : List.Pairwise (fun a b : PKind × Nat => a.2 < b.2) p := by
    have hand := hp.and hpne
    exact hand.imp (fun h => by omega)
  exact List.eq_of_perm_of_sorted hperm hplt hq

theorem sortByOffset_eq_segPlaceholders (t : Str) :
    sortByOffset (matchedPlaceholders t) = segPlaceholders (segCompile t) :=
  sorted_perm_unique _ _
    ((sortByOffset_perm (matchedPlaceholders t)).trans (matched_perm_segPlaceholders t))
    (sortByOffset_pairwise _)
    (tiling_offsets t (segCompile t) 0 (tiling_segCompile t)).2

/-- Claim C1: `parsed_query` applies its parser functions in the order of
the placeholders' start offsets in the original template, and that order
equals the left-to-right order of the capture groups inserted by the
substitution loop.  `segCompile` decomposes the generated regex into the
untouched literal pieces of the template and the inserted capture groups
(`flattenSegs (segCompile t) = compileRegex t`), the groups read
left-to-right carry exactly the placeholder occurrences sorted by their
start offset in the original template, and the auto-computed parser list is
the corresponding list of parse functions.  In particular, for template
`"A%d B%fC"` and reply `"A12 B3.5C"` the parsed result is the ordered
sequence `[12, 3.5]`. -/
theorem c1_placeholder_order :
    (∀ t : Str, flattenSegs (segCompile t) = compileRegex t)
    ∧ (∀ t : Str, sortByOffset (matchedPlaceholders t) = segPlaceholders (segCompile t))
    ∧ (∀ t : Str, autoParsers t
        = (segPlaceholders (segCompile t)).map (fun m => kindPFun m.1))
    ∧ ((⟨["A12 B3.5C".toList], [], none⟩ : MBI).parsed_query ("Q?".toList)
        ("A%d B%fC".toList)).1 = .ok (.seq [.vint 12, .vfloat (mkRat 7 2)]) := by
  refine ⟨flatten_segCompile, sortByOffset_eq_segPlaceholders, ?_, by decide⟩
  intro t
  rw [autoParsers, sortByOffset_eq_segPlaceholders]

/-- Counterexample to claim C9 as stated: the docstring admits raw regex
syntax in templates, and the template `"(?:[%u])"` contains exactly one
placeholder (`%u`), yet the substituted `(` lands inside the character
class `[(\d+)]`, so the generated regex `(?:[(\d+)])` has zero capture
groups; `zip` truncates the parser list against the empty group tuple and
`parsed_query` returns the empty list, not a scalar. -/
theorem c9_counterexample :
    (matchedPlaceholders ("(?:[%u])".toList)).length = 1
    ∧ ((⟨["7".toList], [], none⟩ : MBI).parsed_query ("Q".toList) ("(?:[%u])".toList)).1
        = .ok (.seq []) := by
  decide

set_option maxHeartbeats 2000000 in
/-- Claim C9, amended: the scalar unwrap is keyed on the parsed-value list
having length exactly one (line 151), which is the minimum of the parser
count and the capture-group count.  For a template with exactly one
placeholder whose generated regex parses with at least one capture group
(always the case when the literal text contains no regex metacharacters),
a successful `parsed_query` returns the single value as a scalar; a
returned sequence never has length one; `"%d"` on reply `"42"` gives the
scalar `42`, and `"%d %d"` on `"1 2"` gives the ordered sequence
`[1, 2]`. -/
theorem c9_scalar_unwrap :
    (∀ (i : MBI) (qs t : Str) (r : Reg) (n : Nat) (ret : PyRet),
      (matchedPlaceholders t).length = 1 →
      parseRegTop (compileRegex t) = some (r, n) →
      1 ≤ n →
      (i.parsed_query qs t .auto).1 = .ok ret →
      ∃ v, ret = .scalar v)
    ∧ (∀ (i : MBI) (qs t : Str) (pfa : PFArg) (vs : List PyVal),
      (i.parsed_query qs t pfa).1 = .ok (.seq vs) → vs.length ≠ 1)
    ∧ ((⟨["42".toList], [], none⟩ : MBI).parsed_query ("Q".toList) ("%d".toList)).1
        = .ok (.scalar (.vint 42))
    ∧ ((⟨["1 2".toList], [], none⟩ : MBI).parsed_query ("Q".toList) ("%d %d".toList)).1
        = .ok (.seq [.vint 1, .vint 2]) := by
  refine ⟨?_, ?_, by decide, by decide⟩
  · intro i qs t r n ret hplc hpt hn hok
    rw [MBI.parsed_query.eq_def] at hok
    rcases hq : i.query qs with ⟨res, i2⟩
    rw [hq] at hok
    cases res with
    | error e => simp at hok
    | ok reply =>
      simp only at hok
      rw [hpt] at hok
      simp only at hok
      rcases hs : reSearchGo (fuelFor r reply) r reply with _ | cp
      · rw [hs] at hok
        simp at hok
      · rw [hs] at hok
        simp only at hok
        have hl : (autoParsers t).length = 1 := by
          rw [autoParsers, List.length_map, (sortByOffset_perm _).length_eq, hplc]
        obtain ⟨f, hf⟩ := List.length_eq_one.mp hl
        rw [hf] at hok
        rcases hg : (List.range n).map (fun j => capLookup (j + 1) cp) with _ | ⟨g0, gs⟩
        · exfalso
          have hgl := congrArg List.length hg
          simp at hgl
          omega
        · rw [hg] at hok
          cases g0 with
          | none => simp [zipApply] at hok
          | some gtext =>
            rcases hz : zipApply [f] (some gtext :: gs) with _ | vals
            · rw [hz] at hok
              simp at hok
            · rw [hz] at hok
              simp only [zipApply] at hz
              rcases ha : applyPFun f gtext with _ | v
              · rw [ha] at hz
                simp at hz
              · rw [ha] at hz
                simp at hz
                rw [← hz] at hok
                simp only at hok
                exact ⟨v, by
                  injection hok with h2
                  exact h2.symm⟩
  · intro i qs t pfa vs hok
    rw [MBI.parsed_query.eq_def] at hok
    rcases hq : i.query qs with ⟨res, i2⟩
    rw [hq] at hok
    cases res with
    | error e => simp at hok
    | ok reply =>
      simp only at hok
      rcases hp : parseRegTop (compileRegex t) with _ | ⟨r, n⟩
      · rw [hp] at hok
        simp at hok
      · rw [hp] at hok
        simp only at hok
        rcases hs : reSearchGo (fuelFor r reply) r reply with _ | cp
        · rw [hs] at hok
          simp at hok
        · rw [hs] at hok
          simp only at hok
          split at hok
          · simp at hok
          · rename_i vals hz
            clear hz
            split at hok
            · simp at hok
            · rename_i hne
              simp only at hok
              injection hok with h2
              injection h2 with h3
              rcases vals with _ | ⟨v, _ | ⟨w, rest⟩⟩
              · rw [← h3]
                decide
              · exact absurd rfl (hne v)
              · rw [← h3]
                simp

/-- Witness for `c9_scalar_unwrap`: the sequence rule applied to the
concrete two-placeholder query `"%d %d"` against reply `"1 2"`. -/
theorem c9_scalar_unwrap_witness :
    (((⟨["1 2".toList], [], none⟩ : MBI).parsed_query ("Q".toList) ("%d %d".toList)).1
        = .ok (.seq [.vint 1, .vint 2]))
    ∧ ([PyVal.vint 1, PyVal.vint 2] : List PyVal).length ≠ 1 :=
  ⟨by decide,
    c9_scalar_unwrap.2.1 (⟨["1 2".toList], [], none⟩ : MBI) ("Q".toList)
      ("%d %d".toList) PFArg.auto [PyVal.vint 1, PyVal.vint 2] (by decide)⟩

end NpLab
